import Mathlib

/-! Wallet.cpp: account families, derived accounts and the wallet registry.

A shallow embedding of `src/Wallet.cpp`.

* `std::map<K, V>` is an association list kept in key order; `find`, `insert`
  (which never overwrites a present key) and `erase` are the three map operations
  the source uses.  Mutation of a family through its `shared_ptr` is `mapSet`.
* `NewcoinAddress` values are natural numbers; `0` is the default-constructed
  `NewcoinAddress()`, the only value for which `isValid()` is false.
* A `LocalAccount` holds its family by `shared_ptr`; here it holds the family's
  generator, and the family is the one registered under that generator.
* `uint32` values are naturals reduced `% 2^32`; `int` values are integers, and a
  `uint32` passed where an `int` is expected goes through `toInt32`.
* Elliptic-curve derivation and the text codecs are collaborators that are not part of
  `Wallet.cpp`; they are the fields of `Env`.
* The class declarations and the inline accessors live in `Wallet.h` and
  `NewcoinAddress.h`, which are not among the sources; they are modelled from the
  specification and from the way `Wallet.cpp` uses them.
* `assert(false)` aborts the process: an operation that can reach it returns an
  `Option`, `none` being the abort.
* The wallet database table `LocalAcctFamilies` is a list of rows.
-/

/-! ## std::map -/

/-- The lookup `m.find(k)`: the value stored under `k`, if any. -/
def mapFind {K V : Type} [DecidableEq K] : List (K × V) → K → Option V
  | [], _ => none
  | (k', v) :: m, k => if k' = k then some v else mapFind m k

/-- Ordered placement of a fresh key in a key-sorted list. -/
def mapPlace {K V : Type} [LT K] [DecidableRel (fun a b : K => a < b)] :
    List (K × V) → K → V → List (K × V)
  | [], k, v => [(k, v)]
  | (k', v') :: m, k, v =>
    if k < k' then (k, v) :: (k', v') :: m else (k', v') :: mapPlace m k v

/-- The insertion `m.insert(std::make_pair(k, v))`: a present key keeps its value. -/
def mapInsert {K V : Type} [DecidableEq K] [LT K] [DecidableRel (fun a b : K => a < b)]
    (m : List (K × V)) (k : K) (v : V) : List (K × V) :=
  match mapFind m k with
  | some _ => m
  | none => mapPlace m k v

/-- The removal `m.erase(k)`. -/
def mapErase {K V : Type} [DecidableEq K] : List (K × V) → K → List (K × V)
  | [], _ => []
  | (k', v) :: m, k => if k' = k then mapErase m k else (k', v) :: mapErase m k

/-- Mutation of the object stored under `k` through its pointer (`it->second->...`). -/
def mapSet {K V : Type} [DecidableEq K] : List (K × V) → K → V → List (K × V)
  | [], _, _ => []
  | (k', v') :: m, k, v => if k' = k then (k', v) :: mapSet m k v else (k', v') :: mapSet m k v

/-! ## Machine integers -/

/-- Conversion of a `uint32` value to `int` (two's complement). -/
def toInt32 (n : Nat) : Int :=
  if n % 2 ^ 32 < 2 ^ 31 then ((n % 2 ^ 32 : Nat) : Int) else ((n % 2 ^ 32 : Nat) : Int) - 2 ^ 32

/-- Conversion of an `int` (or a database big integer) to `uint32`. -/
def toUInt32 (i : Int) : Nat := (i % 2 ^ 32).toNat

/-! ## Data model -/

/-- Modelled from the spec: the class `NewcoinAddress` (`NewcoinAddress.h` is absent), a
value with an order (it is the key of both maps) and a validity test. It is a natural
number here; `0` is the default-constructed, invalid value. -/
abbrev NewcoinAddress := Nat

/-- Modelled from the spec: the default-constructed `NewcoinAddress()` (`NewcoinAddress.h`
is absent), the value the lookups return for "not found". -/
def NewcoinAddress.none : NewcoinAddress := 0

/-- Modelled from the spec: the validity test `NewcoinAddress::isValid()`
(`NewcoinAddress.h` is absent); only the default-constructed address is invalid. -/
def NewcoinAddress.isValid (a : NewcoinAddress) : Bool := a != 0

/-- An `EC_KEY`: a public point and, when present, a private scalar. -/
structure ECKey where
  pub : Nat
  priv : Option Nat
deriving DecidableEq, Repr

/-- The collaborators of `Wallet.cpp` whose code lives elsewhere. -/
structure Env where
  /-- The derivation `CKey::GeneratePublicDeterministicKey(generator, seq)`. -/
  generatePublicDeterministicKey : NewcoinAddress → Int → ECKey
  /-- The derivation `CKey::GeneratePrivateDeterministicKey(generator, rootPrivateKey, seq)`. -/
  generatePrivateDeterministicKey : NewcoinAddress → Nat → Int → ECKey
  /-- The address `NewcoinAddress::setAccountPublic(pubKey)` of a public point. -/
  setAccountPublic : Nat → NewcoinAddress
  /-- The generator `NewcoinAddress::setFamilyGenerator(familySeed)` of a seed. -/
  seedGenerator : NewcoinAddress → NewcoinAddress
  /-- The root scalar `familySeed.getFamilyPrivateKey()` of a seed. -/
  getFamilyPrivateKey : NewcoinAddress → Nat
  /-- The decoder `NewcoinAddress::setAccountID(text)`; `none` when it returns false. -/
  setAccountID : String → Option NewcoinAddress
  /-- The decoder `NewcoinAddress::setFamilyGenerator(text)`; `none` when it returns false. -/
  setFamilyGenerator : String → Option NewcoinAddress
  /-- The encoder `NewcoinAddress::humanFamilyGenerator()`. -/
  humanFamilyGenerator : NewcoinAddress → String

/-- Modelled from the spec: the class `LocalAccount` (declared in `Wallet.h`, absent), with
the members `Wallet.cpp` uses: the public key, the address, the owning family (its generator
stands for the `shared_ptr`) and the `int` index. -/
structure LocalAccount where
  mPublicKey : ECKey
  mAccount : NewcoinAddress
  mFamily : NewcoinAddress
  mAccountFSeq : Int
deriving DecidableEq, Repr

/-- Modelled from the spec: the class `LocalAccountFamily` (declared in `Wallet.h`, absent),
with the members `Wallet.cpp` uses: the cache `std::map<int, LocalAccount::pointer>`, the
generator, the `uint32` counter of the next unassigned index, the comment and the root
private key, `none` being the `NULL` pointer (locked). -/
structure LocalAccountFamily where
  mAccounts : List (Int × LocalAccount)
  mFamily : NewcoinAddress
  mLastSeq : Nat
  mComment : String
  mRootPrivateKey : Option Nat
deriving DecidableEq, Repr

/-- A row of the table `LocalAcctFamilies`. -/
structure FamilyRow where
  FamilyGenerator : NewcoinAddress
  Seq : Int
  Comment : String
deriving DecidableEq, Repr

/-- The wallet database: the rows of `LocalAcctFamilies`, in table order. -/
abbrev WalletDB := List FamilyRow

/-- Modelled from the spec: the class `Wallet` (declared in `Wallet.h`, absent), with the two
maps `Wallet.cpp` uses: the family map keyed by generator and the address-to-account
index. -/
structure Wallet where
  mFamilies : List (NewcoinAddress × LocalAccountFamily)
  mAccounts : List (NewcoinAddress × LocalAccount)
deriving DecidableEq, Repr

/-! ## LocalAccount -/

/-- The key derivation `LocalAccountFamily::getPublicKey(seq)`, i.e. `CKey(mFamily, seq)`. -/
def LocalAccountFamily.getPublicKey (env : Env) (fam : LocalAccountFamily) (seq : Int) : ECKey :=
  env.generatePublicDeterministicKey fam.mFamily seq

/-- The constructor `LocalAccount::LocalAccount(family, familySeq)`. The public-key cache of
the application hands back a key equal to the one stored and is left out. -/
def LocalAccount.new (env : Env) (family : LocalAccountFamily) (familySeq : Int) : LocalAccount :=
  let mPublicKey := family.getPublicKey env familySeq
  { mPublicKey := mPublicKey
    mAccount := env.setAccountPublic mPublicKey.pub
    mFamily := family.mFamily
    mAccountFSeq := familySeq }

/-- Modelled from the spec: the getter `LocalAccount::getAddress()` (inline in `Wallet.h`,
absent), the address set by the constructor. -/
def LocalAccount.getAddress (a : LocalAccount) : NewcoinAddress := a.mAccount

/-- Modelled from the spec: the getter `LocalAccountFamily::getSeq()` (inline in `Wallet.h`,
absent) of the next unassigned index; `Wallet.cpp` reads it into `uint32` variables. -/
def LocalAccountFamily.getSeq (fam : LocalAccountFamily) : Nat := fam.mLastSeq % 2 ^ 32

/-- Modelled from the spec: the setter `LocalAccountFamily::setSeq` (inline in `Wallet.h`,
absent); `Wallet.cpp` passes it `uint32` values. -/
def LocalAccountFamily.setSeq (fam : LocalAccountFamily) (s : Nat) : LocalAccountFamily :=
  { fam with mLastSeq := s % 2 ^ 32 }

/-- Modelled from the spec: the setter `LocalAccountFamily::setComment` (inline in
`Wallet.h`, absent). -/
def LocalAccountFamily.setComment (fam : LocalAccountFamily) (c : String) : LocalAccountFamily :=
  { fam with mComment := c }

/-- Modelled from the spec: the test `LocalAccountFamily::isLocked()` (inline in `Wallet.h`,
absent): the root private key is present iff the family is unlocked. -/
def LocalAccountFamily.isLocked (fam : LocalAccountFamily) : Bool := fam.mRootPrivateKey.isNone

/-- The test `LocalAccount::isIssued()`, `mAccountFSeq < mFamily->getSeq()`, on the family
the account points to. The `int` index is compared with the `uint32` counter after the
usual conversion to unsigned. -/
def LocalAccount.isIssued (a : LocalAccount) (family : LocalAccountFamily) : Bool :=
  decide (toUInt32 a.mAccountFSeq < family.getSeq)

/-- The test `LocalAccount::isLocked()` on the family the account points to. -/
def LocalAccount.isLocked (_a : LocalAccount) (family : LocalAccountFamily) : Bool :=
  family.isLocked

/-! ## LocalAccountFamily -/

/-- The constructor `LocalAccountFamily::LocalAccountFamily(familyGenerator)`. -/
def LocalAccountFamily.new (familyGenerator : NewcoinAddress) : LocalAccountFamily :=
  { mAccounts := [], mFamily := familyGenerator, mLastSeq := 0, mComment := "",
    mRootPrivateKey := none }

/-- The method `LocalAccountFamily::getAccount(seq, keep)`: the address of the account at
`seq` and the family afterwards. The body does not read `keep`. -/
def LocalAccountFamily.getAccount (env : Env) (fam : LocalAccountFamily) (seq : Int)
    (_keep : Bool) : NewcoinAddress × LocalAccountFamily :=
  match mapFind fam.mAccounts seq with
  | some ait => (ait.getAddress, fam)
  | none =>
    let lae := LocalAccount.new env fam seq
    (lae.getAddress, { fam with mAccounts := mapInsert fam.mAccounts seq lae })

/-- The number of indices checked after an unlock, the constant `CHECK_NEW_FAMILIES`. -/
def CHECK_NEW_FAMILIES : Nat := 500

/-- One pass of the check loop of `unlock`: `EC_POINT_cmp` of the two public points is zero. -/
def LocalAccountFamily.checkKey (env : Env) (fam : LocalAccountFamily) (root : Nat) (i : Nat) :
    Bool :=
  let pubkey := env.generatePublicDeterministicKey fam.mFamily (i : Int)
  let privkey := env.generatePrivateDeterministicKey fam.mFamily root (i : Int)
  decide (pubkey.pub = privkey.pub)

/-- The loop `for (int i = 0; i < CHECK_NEW_FAMILIES; i++)` of `unlock`, from index `i` with
`n` passes left: false when a pass reaches `assert(false)`. -/
def LocalAccountFamily.checkLoop (env : Env) (fam : LocalAccountFamily) (root : Nat) :
    Nat → Nat → Bool
  | _, 0 => true
  | i, n + 1 => if fam.checkKey env root i then checkLoop env fam root (i + 1) n else false

/-- The method `LocalAccountFamily::unlock(privateKey)`; `none` is the abort at
`assert(false)`. -/
def LocalAccountFamily.unlock (env : Env) (fam : LocalAccountFamily) (privateKey : Nat) :
    Option LocalAccountFamily :=
  let fam1 : LocalAccountFamily :=
    if fam.mRootPrivateKey = none then { fam with mRootPrivateKey := some privateKey } else fam
  match fam1.mRootPrivateKey with
  | none => some fam1
  | some root => if fam1.checkLoop env root 0 CHECK_NEW_FAMILIES then some fam1 else none

/-- The method `LocalAccountFamily::lock()`. -/
def LocalAccountFamily.lock (fam : LocalAccountFamily) : LocalAccountFamily :=
  match fam.mRootPrivateKey with
  | some _ => { fam with mRootPrivateKey := none }
  | none => fam

/-- The method `LocalAccountFamily::getPrivateKey(seq)`: `none` is the empty pointer. -/
def LocalAccountFamily.getPrivateKey (env : Env) (fam : LocalAccountFamily) (seq : Int) :
    Option ECKey :=
  match fam.mRootPrivateKey with
  | none => none
  | some root => some (env.generatePrivateDeterministicKey fam.mFamily root seq)

/-- The method `LocalAccount::getPrivateKey()` on the family the account points to. -/
def LocalAccount.getPrivateKey (env : Env) (a : LocalAccount) (family : LocalAccountFamily) :
    Option ECKey :=
  family.getPrivateKey env a.mAccountFSeq

/-- The method `LocalAccountFamily::readFamily(family)`: the first row of the query, as a
family; `none` when the query has no row. -/
def LocalAccountFamily.readFamily (db : WalletDB) (family : NewcoinAddress) :
    Option LocalAccountFamily :=
  match db.find? (fun row => decide (row.FamilyGenerator = family)) with
  | none => none
  | some row =>
    some (((LocalAccountFamily.new family).setComment row.Comment).setSeq (toUInt32 row.Seq))

/-- The method `LocalAccountFamily::write(is_new)`: one row appended to the table. -/
def LocalAccountFamily.write (fam : LocalAccountFamily) (db : WalletDB) : WalletDB :=
  db ++ [{ FamilyGenerator := fam.mFamily, Seq := (fam.mLastSeq : Int), Comment := fam.mComment }]

/-! ## Wallet -/

/-- The constructor `Wallet::Wallet()`. -/
def Wallet.new : Wallet := { mFamilies := [], mAccounts := [] }

/-- The method `Wallet::doPublic(familyGenerator, do_create, do_db)`: the family pointer
returned (`none` is the empty pointer), the wallet and the database afterwards. -/
def Wallet.doPublic (w : Wallet) (db : WalletDB) (familyGenerator : NewcoinAddress)
    (do_create do_db : Bool) : Option LocalAccountFamily × Wallet × WalletDB :=
  match mapFind w.mFamilies familyGenerator with
  | some fit => (some fit, w, db)
  | none =>
    if !do_create then (none, w, db)
    else
      let fam : Option LocalAccountFamily :=
        if do_db then LocalAccountFamily.readFamily db familyGenerator else none
      let do_create1 : Bool := if do_db && fam.isSome then false else do_create
      if do_create1 then
        let fam1 := LocalAccountFamily.new familyGenerator
        (some fam1, { w with mFamilies := mapInsert w.mFamilies familyGenerator fam1 },
          if do_db then fam1.write db else db)
      else (fam, w, db)

/-- The method `Wallet::doPrivate(familySeed, do_create, do_unlock)`. The outer `none` is the
abort inside `unlock`; otherwise the family pointer returned, the wallet and the database. -/
def Wallet.doPrivate (env : Env) (w : Wallet) (db : WalletDB) (familySeed : NewcoinAddress)
    (do_create do_unlock : Bool) : Option (Option LocalAccountFamily × Wallet × WalletDB) :=
  let familyGenerator := env.seedGenerator familySeed
  -- the family, whether it is held by mFamilies, the wallet and the database so far
  let found : Option (LocalAccountFamily × Bool × Wallet × WalletDB) :=
    match mapFind w.mFamilies familyGenerator with
    | none =>
      match LocalAccountFamily.readFamily db familyGenerator with
      | none =>
        if !do_create then none
        else
          let fam := LocalAccountFamily.new familyGenerator
          some (fam, true, { w with mFamilies := mapInsert w.mFamilies familyGenerator fam },
            fam.write db)
      | some fam => some (fam, false, w, db)
    | some it => some (it, true, w, db)
  match found with
  | none => some (none, w, db)
  | some (fam, held, w1, db1) =>
    if do_unlock && fam.isLocked then
      match fam.unlock env (env.getFamilyPrivateKey familySeed) with
      | none => none
      | some fam1 =>
        some (some fam1,
          if held then { w1 with mFamilies := mapSet w1.mFamilies familyGenerator fam1 } else w1,
          db1)
    else some (some fam, w1, db1)

/-- The address returned by the `addFamily` and `findFamilyPK` wrappers:
`fam ? fam->getFamily() : NewcoinAddress()`. -/
def familyResult (fam : Option LocalAccountFamily) : NewcoinAddress :=
  match fam with
  | some f => f.mFamily
  | none => NewcoinAddress.none

/-- The method `Wallet::addFamily(familySeed, lock)`; `none` is the abort inside `unlock`. -/
def Wallet.addFamilySeed (env : Env) (w : Wallet) (db : WalletDB) (familySeed : NewcoinAddress)
    (lock : Bool) : Option (NewcoinAddress × Wallet × WalletDB) :=
  match w.doPrivate env db familySeed true (!lock) with
  | none => none
  | some (fam, w1, db1) => some (familyResult fam, w1, db1)

/-- The method `Wallet::addFamily(familyGenerator)`. -/
def Wallet.addFamily (w : Wallet) (db : WalletDB) (familyGenerator : NewcoinAddress) :
    NewcoinAddress × Wallet × WalletDB :=
  match w.doPublic db familyGenerator true true with
  | (fam, w1, db1) => (familyResult fam, w1, db1)

/-- The method `Wallet::findFamilyPK(familyGenerator)`. -/
def Wallet.findFamilyPK (w : Wallet) (db : WalletDB) (familyGenerator : NewcoinAddress) :
    NewcoinAddress × Wallet × WalletDB :=
  match w.doPublic db familyGenerator false true with
  | (fam, w1, db1) => (familyResult fam, w1, db1)

/-- The method `Wallet::getNewLocalAccount(family)`: the account pointer returned (`none` is
the empty pointer) and the wallet afterwards. -/
def Wallet.getNewLocalAccount (env : Env) (w : Wallet) (family : NewcoinAddress) :
    Option LocalAccount × Wallet :=
  match mapFind w.mFamilies family with
  | none => (none, w)
  | some fit =>
    let seq : Nat := fit.getSeq
    match fit.getAccount env (toInt32 seq) true with
    | (acct, fit1) =>
      let fit2 := fit1.setSeq (seq + 1)
      let w1 : Wallet := { w with mFamilies := mapSet w.mFamilies family fit2 }
      match mapFind w1.mAccounts acct with
      | some ait => (some ait, w1)
      | none =>
        let lac := LocalAccount.new env fit2 (toInt32 seq)
        (some lac, { w1 with mAccounts := mapInsert w1.mAccounts acct lac })

/-- The method `Wallet::getLocalAccount(family, seq)`. -/
def Wallet.getLocalAccount (env : Env) (w : Wallet) (family : NewcoinAddress) (seq : Int) :
    Option LocalAccount × Wallet :=
  match mapFind w.mFamilies family with
  | none => (none, w)
  | some fit =>
    match fit.getAccount env seq true with
    | (acct, fit1) =>
      let w1 : Wallet := { w with mFamilies := mapSet w.mFamilies family fit1 }
      match mapFind w1.mAccounts acct with
      | some ait => (some ait, w1)
      | none =>
        let lac := LocalAccount.new env fit1 seq
        (some lac, { w1 with mAccounts := mapInsert w1.mAccounts acct lac })

/-- The method `Wallet::getLocalAccount(acctID)`. -/
def Wallet.getLocalAccountByID (w : Wallet) (acctID : NewcoinAddress) : Option LocalAccount :=
  mapFind w.mAccounts acctID

/-- The method `Wallet::peekKey(family, seq)`: the address returned and the wallet
afterwards. -/
def Wallet.peekKey (env : Env) (w : Wallet) (family : NewcoinAddress) (seq : Int) :
    NewcoinAddress × Wallet :=
  match mapFind w.mFamilies family with
  | none => (NewcoinAddress.none, w)
  | some fit =>
    match fit.getAccount env seq false with
    | (acct, fit1) => (acct, { w with mFamilies := mapSet w.mFamilies family fit1 })

/-- The method `Wallet::delFamily(familyName)`. -/
def Wallet.delFamily (w : Wallet) (familyName : NewcoinAddress) : Wallet :=
  match mapFind w.mFamilies familyName with
  | none => w
  | some fit =>
    { mAccounts := fit.mAccounts.foldl (fun m it => mapErase m it.2.getAddress) w.mAccounts
      mFamilies := mapErase w.mFamilies familyName }

/-- The method `Wallet::lock(family)`: the boolean returned and the wallet afterwards. -/
def Wallet.lock (w : Wallet) (family : NewcoinAddress) : Bool × Wallet :=
  match mapFind w.mFamilies family with
  | none => (false, w)
  | some fit => (true, { w with mFamilies := mapSet w.mFamilies family fit.lock })

/-- The method `Wallet::lock()`: every family of the map is locked. -/
def Wallet.lockAll (w : Wallet) : Wallet :=
  { w with mFamilies := w.mFamilies.map (fun fit => (fit.1, fit.2.lock)) }

/-- One pass of the row loop of `Wallet::load()`. -/
def Wallet.loadRow (db : WalletDB) (w : Wallet) (row : FamilyRow) : Wallet :=
  match w.doPublic db row.FamilyGenerator true false with
  | (some f, w1, _) =>
    let f1 := (f.setSeq (toUInt32 row.Seq)).setComment row.Comment
    { w1 with mFamilies := mapSet w1.mFamilies row.FamilyGenerator f1 }
  | (none, w1, _) => w1

/-- The method `Wallet::load()`: the rows of the table, in order. -/
def Wallet.load (w : Wallet) (db : WalletDB) : Wallet := db.foldl (Wallet.loadRow db) w

/-! ## Account specifiers -/

/-- The conversion `boost::lexical_cast<int>(text)`: an optional sign, then one or more
decimal digits and nothing else, the value within the range of `int`; `none` is the
exception `bad_lexical_cast`. -/
def lexicalCastInt (text : String) : Option Int :=
  let signed : Bool × List Char :=
    match text.toList with
    | '-' :: r => (true, r)
    | '+' :: r => (false, r)
    | r => (false, r)
  if signed.2.isEmpty || !signed.2.all Char.isDigit then none
  else
    let n : Nat := signed.2.foldl (fun a c => 10 * a + (c.toNat - 48)) 0
    let v : Int := if signed.1 then -(n : Int) else (n : Int)
    if -(2 ^ 31) ≤ v ∧ v < 2 ^ 31 then some v else none

/-- The exception that leaves `Wallet::parseAccount`. -/
inductive Thrown where
  | bad_lexical_cast
deriving DecidableEq, Repr

deriving instance DecidableEq for Except

/-- The method `Wallet::parseAccount(specifier)`: either the exception thrown, or the
account pointer returned with the wallet and the database afterwards. -/
def Wallet.parseAccount (env : Env) (w : Wallet) (db : WalletDB) (specifier : String) :
    Except Thrown (Option LocalAccount × Wallet × WalletDB) :=
  match specifier.toList.span (fun c => c != ':') with
  | (_, []) =>
    -- no colon
    match env.setAccountID specifier with
    | some na => .ok (w.getLocalAccountByID na, w, db)
    | none => .ok (none, w, db)
  | (family, _ :: seq) =>
    if family.isEmpty then .ok (none, w, db)
    else if seq.isEmpty then .ok (none, w, db)
    else
      let found : NewcoinAddress × Wallet × WalletDB :=
        match env.setFamilyGenerator (String.mk family) with
        | some familyParsed => w.findFamilyPK db familyParsed
        | none => (NewcoinAddress.none, w, db)
      match found with
      | (familyFound, w1, db1) =>
        if familyFound.isValid then
          match lexicalCastInt (String.mk seq) with
          | none => .error Thrown.bad_lexical_cast
          | some n =>
            match w1.getLocalAccount env familyFound n with
            | (acct, w2) => .ok (acct, w2, db1)
        else .ok (none, w1, db1)

/-! ## Sequences of wallet operations -/

/-- The state the wallet operations act on: the registry and the wallet database. -/
abbrev State := Wallet × WalletDB

/-- The public operations of `Wallet` that act on the registry. -/
inductive Op where
  | addFamilySeed (familySeed : NewcoinAddress) (lock : Bool)
  | addFamily (familyGenerator : NewcoinAddress)
  | findFamilyPK (familyGenerator : NewcoinAddress)
  | getNewLocalAccount (family : NewcoinAddress)
  | getLocalAccount (family : NewcoinAddress) (seq : Int)
  | getLocalAccountByID (acctID : NewcoinAddress)
  | parseAccount (specifier : String)
  | peekKey (family : NewcoinAddress) (seq : Int)
  | delFamily (familyName : NewcoinAddress)
  | lock (family : NewcoinAddress)
  | lockAll
  | load
deriving DecidableEq, Repr

/-- The state after one operation; `none` is the abort inside `unlock`. An exception that
leaves `parseAccount` is raised before anything is modified. -/
def Op.step (env : Env) (op : Op) (s : State) : Option State :=
  match op with
  | .addFamilySeed familySeed lockIt =>
    match s.1.addFamilySeed env s.2 familySeed lockIt with
    | none => none
    | some r => some r.2
  | .addFamily familyGenerator => some (s.1.addFamily s.2 familyGenerator).2
  | .findFamilyPK familyGenerator => some (s.1.findFamilyPK s.2 familyGenerator).2
  | .getNewLocalAccount family => some ((s.1.getNewLocalAccount env family).2, s.2)
  | .getLocalAccount family seq => some ((s.1.getLocalAccount env family seq).2, s.2)
  | .getLocalAccountByID _ => some s
  | .parseAccount specifier =>
    match s.1.parseAccount env s.2 specifier with
    | .error _ => some s
    | .ok r => some r.2
  | .peekKey family seq => some ((s.1.peekKey env family seq).2, s.2)
  | .delFamily familyName => some (s.1.delFamily familyName, s.2)
  | .lock family => some ((s.1.lock family).2, s.2)
  | .lockAll => some (s.1.lockAll, s.2)
  | .load => some (s.1.load s.2, s.2)

/-- The state after a sequence of operations, first to last. -/
def runOps (env : Env) : List Op → State → Option State
  | [], s => some s
  | op :: ops, s =>
    match op.step env s with
    | none => none
    | some s1 => runOps env ops s1

/-- The states of a wallet that starts as `Wallet()` over some database and is then driven
by the public operations. -/
inductive Reachable (env : Env) : State → Prop where
  | start (db : WalletDB) : Reachable env (Wallet.new, db)
  | step (op : Op) (s s1 : State) : Reachable env s → op.step env s = some s1 → Reachable env s1

/-- The accounts returned by the calls `getNewLocalAccount(family)` met along a sequence of
operations, in call order. -/
def allocations (env : Env) (family : NewcoinAddress) : List Op → State → List (Option LocalAccount)
  | [], _ => []
  | op :: ops, s =>
    let here : List (Option LocalAccount) :=
      if op = Op.getNewLocalAccount family then [(s.1.getNewLocalAccount env family).1] else []
    match op.step env s with
    | none => here
    | some s1 => here ++ allocations env family ops s1

/-- The family the account points to, looked up in the registry. -/
def Wallet.familyOf (w : Wallet) (a : LocalAccount) : Option LocalAccountFamily :=
  mapFind w.mFamilies a.mFamily

/-- The account `LocalAccount(family, seq)` of a family with generator `g`. -/
def accountOf (env : Env) (g : NewcoinAddress) (seq : Int) : LocalAccount :=
  LocalAccount.new env (LocalAccountFamily.new g) seq

/-- The address derived for the pair (generator, index). -/
def addressOf (env : Env) (g : NewcoinAddress) (seq : Int) : NewcoinAddress :=
  (accountOf env g seq).getAddress

/-- Distinct (generator, index) pairs derive distinct addresses. -/
def Env.CollisionFree (env : Env) : Prop :=
  ∀ g g1 : NewcoinAddress, ∀ i i1 : Int, addressOf env g i = addressOf env g1 i1 → g = g1 ∧ i = i1

/-! ## A concrete instance of the collaborators -/

/-- An injective code of the integers. -/
def intCode : Int → Nat
  | Int.ofNat n => 2 * n
  | Int.negSucc n => 2 * n + 1

/-- Decimal text of a natural number, read digit by digit; `none` for any other text. -/
def readDecimal (text : String) : Option Nat :=
  if text.toList.isEmpty || !text.toList.all Char.isDigit then none
  else some (text.toList.foldl (fun a c => 10 * a + (c.toNat - 48)) 0)

/-- A small instance of the collaborators: public points are pairs (generator, index), the
private derivation adds the root to the index and agrees with the public one, addresses and
generators are written in decimal. -/
def sampleEnv : Env where
  generatePublicDeterministicKey := fun g i => { pub := Nat.pair g (intCode i) + 1, priv := none }
  generatePrivateDeterministicKey := fun g r i =>
    { pub := Nat.pair g (intCode i) + 1, priv := some (r + intCode i) }
  setAccountPublic := fun p => p
  seedGenerator := fun s => s + 1
  getFamilyPrivateKey := fun s => s
  setAccountID := readDecimal
  setFamilyGenerator := readDecimal
  humanFamilyGenerator := fun g => toString g

/-- An instance whose private derivation disagrees with the public one from index 3 on. -/
def brokenEnv : Env :=
  { sampleEnv with
    generatePrivateDeterministicKey := fun g r i =>
      { pub := if i < 3 then Nat.pair g (intCode i) + 1 else 0, priv := some (r + intCode i) } }

/-! ## Concrete states -/

/-- A wallet database that already holds a row for the family with generator 7. -/
def storedDB : WalletDB := [{ FamilyGenerator := 7, Seq := 3, Comment := "saved" }]

/-- A registry holding the single, freshly created family with generator 7. -/
def oneFamily : Wallet := (Wallet.new.addFamily [] 7).2.1

/-- Consistency of a registry: a family is stored under its own generator and caches, at each
index, the account constructed for that index; the address index stores each account under
its own address, and only accounts whose family is registered and caches their index. -/
structure Wallet.WF (env : Env) (w : Wallet) : Prop where
  families : ∀ g fam, mapFind w.mFamilies g = some fam →
    fam.mFamily = g ∧ ∀ p ∈ fam.mAccounts, p.2 = accountOf env g p.1
  accounts : ∀ p ∈ w.mAccounts, p.1 = p.2.mAccount ∧
    p.2 = accountOf env p.2.mFamily p.2.mAccountFSeq ∧
    ∃ fam, mapFind w.mFamilies p.2.mFamily = some fam ∧
      ∃ q ∈ fam.mAccounts, q.1 = p.2.mAccountFSeq

/-- The wallet database after `addFamily(7)` on an empty wallet and an empty database. -/
def oneFamilyDB : WalletDB := (Wallet.new.addFamily [] 7).2.2

/-- A wallet database whose row for generator 7 stores the largest `uint32` counter. -/
def lastSeqDB : WalletDB := [{ FamilyGenerator := 7, Seq := 4294967295, Comment := "" }]

/-- The registry that `Wallet::load()` builds from `lastSeqDB`: family 7 with nextSeq
4294967295. -/
def lastSeqWallet : Wallet := Wallet.new.load lastSeqDB

/-- The registry after one allocation on `oneFamily`. -/
def oneAccount : Wallet := (oneFamily.getNewLocalAccount sampleEnv 7).2

/-- The operations that allocate, look up or preview accounts, or lock families. -/
def Op.allocOrLookup : Op → Bool
  | .getNewLocalAccount _ => true
  | .getLocalAccount _ _ => true
  | .getLocalAccountByID _ => true
  | .peekKey _ _ => true
  | .lock _ => true
  | .lockAll => true
  | _ => false

/-- The operations that supply only public material. -/
def Op.publicMaterial : Op → Bool
  | .addFamily _ => true
  | .findFamilyPK _ => true
  | .getNewLocalAccount _ => true
  | .getLocalAccount _ _ => true
  | .getLocalAccountByID _ => true
  | .parseAccount _ => true
  | .peekKey _ _ => true
  | .lock _ => true
  | .lockAll => true
  | _ => false

/-- The operation is `addFamily(familySeed, lock)` with unlocking requested (`lock` false)
and a seed of the family with generator `g`. -/
def Op.unlocks (env : Env) (g : NewcoinAddress) : Op → Bool
  | .addFamilySeed familySeed lockIt => !lockIt && decide (env.seedGenerator familySeed = g)
  | _ => false

/-- The root key that family `g` has in `w1` is absent or the one it had in `w`. -/
def RootKept (g : NewcoinAddress) (w w1 : Wallet) : Prop :=
  ∀ fam1, mapFind w1.mFamilies g = some fam1 →
    fam1.mRootPrivateKey = none ∨
    ∃ fam, mapFind w.mFamilies g = some fam ∧ fam1.mRootPrivateKey = fam.mRootPrivateKey

/-- Two allocations on family 7 with a preview, a lookup and a lock in between. -/
def sampleOps : List Op :=
  [Op.getNewLocalAccount 7, Op.peekKey 7 9, Op.getLocalAccount 7 4, Op.lockAll,
    Op.getNewLocalAccount 7]

/-- Public-material operations on family 7, among them a specifier that `parseAccount`
rejects by an exception. -/
def publicOps : List Op :=
  [Op.getNewLocalAccount 7, Op.parseAccount "7:1", Op.parseAccount "7:x", Op.peekKey 7 3,
    Op.addFamily 7, Op.lock 7, Op.findFamilyPK 7, Op.getLocalAccount 7 2]

/-! ## The ledger and the choice of a paying account -/

/-- The account states that `theApp->getOPs().getAccountState(address)` reports, a
collaborator outside `Wallet.cpp`: `none` is the empty `AccountState` pointer, otherwise
the `uint64` balance `getBalance()` of the state. -/
abbrev Ledger := NewcoinAddress → Option Nat

/-- The method `LocalAccount::getEffectiveBalance()`: zero without an account state. -/
def LocalAccount.getEffectiveBalance (ledger : Ledger) (a : LocalAccount) : Nat :=
  match ledger a.mAccount with
  | none => 0
  | some balance => balance

/-- The test `it->second->isLocked()` on an account of the address index: the family it
points to is the one registered under its generator. An account of the index always has
its family registered; for any other account the answer is "locked". -/
def Wallet.accountIsLocked (w : Wallet) (a : LocalAccount) : Bool :=
  match w.familyOf a with
  | some family => a.isLocked family
  | none => true

/-- The loop of `Wallet::findAccountForTransaction` over the entries of `mAccounts` from
`begin()` on: the first entry that is not locked and whose effective balance is at least
`amount`. -/
def Wallet.scanAccounts (ledger : Ledger) (w : Wallet) (amount : Nat) :
    List (NewcoinAddress × LocalAccount) → Option LocalAccount
  | [] => none
  | it :: rest =>
    if !w.accountIsLocked it.2 && decide (amount ≤ it.2.getEffectiveBalance ledger) then
      some it.2
    else Wallet.scanAccounts ledger w amount rest

/-- The method `Wallet::findAccountForTransaction(amount)`: the account pointer returned
(`none` is the empty pointer) and the wallet afterwards. -/
def Wallet.findAccountForTransaction (ledger : Ledger) (w : Wallet) (amount : Nat) :
    Option LocalAccount × Wallet :=
  (w.scanAccounts ledger amount w.mAccounts, w)

/-- The entries of the address index are in strictly increasing address order, the
iteration order of `std::map`. -/
def Wallet.Sorted (w : Wallet) : Prop :=
  w.mAccounts.Pairwise (fun p q => p.1 < q.1)

/-! ## Full names of accounts -/

/-- The character of a decimal digit. -/
def digitChar (d : Nat) : Char := Char.ofNat (48 + d)

/-- The decimal digits of `n`, most significant first, put in front of `acc`; `fuel` bounds
the number of digits. -/
def decimalCore : Nat → Nat → List Char → List Char
  | 0, _, acc => acc
  | fuel + 1, n, acc =>
    if n / 10 = 0 then digitChar (n % 10) :: acc
    else decimalCore fuel (n / 10) (digitChar (n % 10) :: acc)

/-- The conversion `boost::lexical_cast<std::string>(int)`: the decimal digits, after a
minus sign for a negative value. -/
def lexicalCastString : Int → String
  | Int.ofNat n => String.mk (decimalCore (n + 1) n [])
  | Int.negSucc n => String.mk ('-' :: decimalCore (n + 2) (n + 1) [])

/-- The method `LocalAccount::getFullName()`: the text of the family generator, a colon and
the index. -/
def LocalAccount.getFullName (env : Env) (a : LocalAccount) : String :=
  (env.humanFamilyGenerator a.mFamily ++ ":") ++ lexicalCastString a.mAccountFSeq

/-! ## More concrete states -/

/-- The registry after `addFamily(seed 6, lock = false)` on an empty wallet (family 7,
unlocked) and two allocations. -/
def unlockedTwo : Wallet :=
  { mFamilies :=
      [(7, { mAccounts := [(0, accountOf sampleEnv 7 0), (1, accountOf sampleEnv 7 1)],
             mFamily := 7, mLastSeq := 2, mComment := "", mRootPrivateKey := some 6 })],
    mAccounts :=
      [(addressOf sampleEnv 7 0, accountOf sampleEnv 7 0),
       (addressOf sampleEnv 7 1, accountOf sampleEnv 7 1)] }

/-- A ledger in which only the second account of family 7 has an account state, with
balance 50. -/
def sampleLedger : Ledger :=
  fun a => if a = addressOf sampleEnv 7 1 then some 50 else none

/-- A ledger in which every account has balance 10. -/
def flatLedger : Ledger := fun _ => some 10

/-- The registry after `addFamily(seed 6, lock = false)` on an empty wallet: family 7,
unlocked with root key 6. -/
def unlockedFamily : Wallet :=
  { mFamilies :=
      [(7, { mAccounts := [], mFamily := 7, mLastSeq := 0, mComment := "",
             mRootPrivateKey := some 6 })],
    mAccounts := [] }

/-! ## Facts about the map operations -/

section MapFacts

variable {K V : Type} [DecidableEq K]

theorem mapFind_some_mem {m : List (K × V)} {k : K} {v : V} (h : mapFind m k = some v) :
    (k, v) ∈ m := by
  induction m with
  | nil => simp [mapFind] at h
  | cons p m ih =>
    obtain ⟨k1, v1⟩ := p
    by_cases hk : k1 = k
    · subst hk
      simp [mapFind] at h
      simp [h]
    · simp [mapFind, hk] at h
      exact List.mem_cons_of_mem _ (ih h)

theorem mapFind_none_of_not_mem {m : List (K × V)} {k : K} (h : ∀ p ∈ m, p.1 ≠ k) :
    mapFind m k = none := by
  induction m with
  | nil => rfl
  | cons p m ih =>
    obtain ⟨k1, v1⟩ := p
    have hk : k1 ≠ k := h (k1, v1) (List.mem_cons_self _ _)
    simp only [mapFind, hk, if_false]
    exact ih (fun q hq => h q (List.mem_cons_of_mem _ hq))

theorem mapFind_none_not_mem {m : List (K × V)} {k : K} (h : mapFind m k = none) :
    ∀ p ∈ m, p.1 ≠ k := by
  induction m with
  | nil => intro p hp; simp at hp
  | cons q m ih =>
    obtain ⟨k1, v1⟩ := q
    by_cases hk : k1 = k
    · simp [mapFind, hk] at h
    · simp only [mapFind, hk, if_false] at h
      intro p hp
      rcases List.mem_cons.mp hp with rfl | hp
      · exact hk
      · exact ih h p hp

theorem mem_mapFind_isSome {m : List (K × V)} {p : K × V} (h : p ∈ m) :
    ∃ v, mapFind m p.1 = some v := by
  cases hf : mapFind m p.1 with
  | some v => exact ⟨v, rfl⟩
  | none => exact absurd rfl (mapFind_none_not_mem hf p h)

theorem mapFind_mapSet (m : List (K × V)) (k k1 : K) (v : V) :
    mapFind (mapSet m k v) k1 = if k1 = k then (mapFind m k).map (fun _ => v) else mapFind m k1 := by
  induction m with
  | nil => simp [mapSet, mapFind]
  | cons p m ih =>
    obtain ⟨k2, v2⟩ := p
    by_cases h2 : k2 = k
    · subst h2
      by_cases h1 : k1 = k2
      · subst h1; simp [mapSet, mapFind]
      · have h1' : ¬ k2 = k1 := fun h => h1 h.symm
        simp [mapSet, mapFind, h1, h1', ih]
    · by_cases h1 : k1 = k
      · subst h1
        simp [mapSet, mapFind, h2, ih]
      · by_cases h3 : k2 = k1
        · simp [mapSet, mapFind, h2, h1, h3]
        · simp [mapSet, mapFind, h2, h1, h3, ih]

theorem mem_mapSet {m : List (K × V)} {k : K} {v : V} {p : K × V} (h : p ∈ mapSet m k v) :
    (p.1 = k ∧ p.2 = v) ∨ (p.1 ≠ k ∧ p ∈ m) := by
  induction m with
  | nil => simp [mapSet] at h
  | cons q m ih =>
    obtain ⟨k2, v2⟩ := q
    by_cases h2 : k2 = k
    · simp only [mapSet, h2, if_true] at h
      rcases List.mem_cons.mp h with rfl | h
      · exact Or.inl ⟨rfl, rfl⟩
      · rcases ih h with h | h
        · exact Or.inl h
        · exact Or.inr ⟨h.1, List.mem_cons_of_mem _ h.2⟩
    · simp only [mapSet, h2, if_false] at h
      rcases List.mem_cons.mp h with rfl | h
      · exact Or.inr ⟨h2, List.mem_cons_self _ _⟩
      · rcases ih h with h | h
        · exact Or.inl h
        · exact Or.inr ⟨h.1, List.mem_cons_of_mem _ h.2⟩

theorem mapFind_mapErase (m : List (K × V)) (k k1 : K) :
    mapFind (mapErase m k) k1 = if k1 = k then none else mapFind m k1 := by
  induction m with
  | nil => simp [mapErase, mapFind]
  | cons p m ih =>
    obtain ⟨k2, v2⟩ := p
    by_cases h2 : k2 = k
    · subst h2
      by_cases h1 : k1 = k2
      · subst h1; simp [mapErase, ih]
      · have h1' : ¬ k2 = k1 := fun h => h1 h.symm
        simp [mapErase, mapFind, h1, h1', ih]
    · by_cases h1 : k1 = k
      · subst h1
        simp [mapErase, mapFind, h2, ih]
      · by_cases h3 : k2 = k1
        · subst h3; simp [mapErase, mapFind, h2]
        · simp [mapErase, mapFind, h2, h1, h3, ih]

theorem mem_mapErase {m : List (K × V)} {k : K} {p : K × V} :
    p ∈ mapErase m k ↔ p ∈ m ∧ p.1 ≠ k := by
  induction m with
  | nil => simp [mapErase]
  | cons q m ih =>
    obtain ⟨k2, v2⟩ := q
    by_cases h2 : k2 = k
    · simp only [mapErase, h2, if_true, ih, List.mem_cons]
      constructor
      · rintro ⟨h, hk⟩; exact ⟨Or.inr h, hk⟩
      · rintro ⟨h | h, hk⟩
        · exact absurd (by rw [h]) hk
        · exact ⟨h, hk⟩
    · simp only [mapErase, h2, if_false, List.mem_cons, ih]
      constructor
      · rintro (h | ⟨h, hk⟩)
        · exact ⟨Or.inl h, by rw [h]; exact h2⟩
        · exact ⟨Or.inr h, hk⟩
      · rintro ⟨h | h, hk⟩
        · exact Or.inl h
        · exact Or.inr ⟨h, hk⟩

theorem mem_foldl_mapErase {A : Type} (f : A → K) (l : List A) (m : List (K × V)) (p : K × V) :
    p ∈ l.foldl (fun acc it => mapErase acc (f it)) m ↔ p ∈ m ∧ ∀ it ∈ l, p.1 ≠ f it := by
  induction l generalizing m with
  | nil => simp
  | cons a l ih =>
    simp only [List.foldl_cons, ih, mem_mapErase, List.mem_cons, forall_eq_or_imp]
    tauto

theorem mapFind_map (f : V → V) (m : List (K × V)) (k : K) :
    mapFind (m.map (fun p => (p.1, f p.2))) k = (mapFind m k).map f := by
  induction m with
  | nil => simp [mapFind]
  | cons p m ih =>
    obtain ⟨k2, v2⟩ := p
    by_cases h2 : k2 = k
    · simp [mapFind, h2]
    · simp [mapFind, h2, ih]

variable [LT K] [DecidableRel (fun a b : K => a < b)]

theorem mem_mapPlace {m : List (K × V)} {k : K} {v : V} {p : K × V} :
    p ∈ mapPlace m k v ↔ p = (k, v) ∨ p ∈ m := by
  induction m with
  | nil => simp [mapPlace]
  | cons q m ih =>
    obtain ⟨k2, v2⟩ := q
    by_cases h : k < k2
    · simp [mapPlace, h]
    · simp only [mapPlace, h, if_false, List.mem_cons, ih]
      tauto

theorem mapFind_mapPlace {m : List (K × V)} {k : K} (v : V) (k1 : K) (h : mapFind m k = none) :
    mapFind (mapPlace m k v) k1 = if k1 = k then some v else mapFind m k1 := by
  induction m with
  | nil =>
    by_cases h1 : k1 = k
    · subst h1; simp [mapPlace, mapFind]
    · have h1' : ¬ k = k1 := fun h => h1 h.symm
      simp [mapPlace, mapFind, h1, h1']
  | cons q m ih =>
    obtain ⟨k2, v2⟩ := q
    have h2 : ¬ k2 = k := by
      intro h2; simp [mapFind, h2] at h
    have hm : mapFind m k = none := by
      simpa [mapFind, h2] using h
    by_cases hlt : k < k2
    · by_cases h1 : k1 = k
      · subst h1; simp [mapPlace, mapFind, hlt]
      · have h1' : ¬ k = k1 := fun h => h1 h.symm
        simp [mapPlace, mapFind, hlt, h1, h1']
    · by_cases h1 : k1 = k
      · subst h1; simp [mapPlace, mapFind, hlt, h2, ih hm]
      · by_cases h3 : k2 = k1
        · subst h3; simp [mapPlace, mapFind, hlt, h1]
        · simp [mapPlace, mapFind, hlt, h1, h3, ih hm]

theorem mapFind_mapInsert (m : List (K × V)) (k k1 : K) (v : V) :
    mapFind (mapInsert m k v) k1 =
      if k1 = k then some ((mapFind m k).getD v) else mapFind m k1 := by
  unfold mapInsert
  cases h : mapFind m k with
  | some v0 =>
    by_cases h1 : k1 = k
    · subst h1; simp [h]
    · simp [h1]
  | none => simp [mapFind_mapPlace v k1 h]

theorem mem_mapInsert {m : List (K × V)} {k : K} {v : V} {p : K × V} (h : p ∈ mapInsert m k v) :
    p = (k, v) ∨ p ∈ m := by
  unfold mapInsert at h
  cases hf : mapFind m k with
  | some v0 => rw [hf] at h; exact Or.inr h
  | none => rw [hf] at h; exact mem_mapPlace.mp h

theorem mem_mapInsert_of_mem {m : List (K × V)} {k : K} {v : V} {p : K × V} (h : p ∈ m) :
    p ∈ mapInsert m k v := by
  unfold mapInsert
  cases hf : mapFind m k with
  | some v0 => exact h
  | none => exact mem_mapPlace.mpr (Or.inr h)

end MapFacts

/-! ## The check loop on the concrete collaborators -/

theorem sampleEnv_checkLoop (fam : LocalAccountFamily) (root : Nat) (n i : Nat) :
    fam.checkLoop sampleEnv root i n = true := by
  induction n generalizing i with
  | zero => rfl
  | succ n ih =>
    have hk : fam.checkKey sampleEnv root i = true := by
      simp [LocalAccountFamily.checkKey, sampleEnv]
    simp [LocalAccountFamily.checkLoop, hk, ih]

theorem sampleEnv_unlock (fam : LocalAccountFamily) (r : Nat) (h : fam.mRootPrivateKey = none) :
    fam.unlock sampleEnv r = some { fam with mRootPrivateKey := some r } := by
  simp [LocalAccountFamily.unlock, h, sampleEnv_checkLoop]

/-! ## C1 - C3: evaluation of the code at the failing inputs -/

/-- C1: with the wallet empty and a row for generator 7 in the database, both
`addFamily(7)` and `addFamily(seed 6, lock)` (whose generator is 7) return the valid
generator 7, yet the family map stays empty: right afterwards `findFamilyPK(7)` returns the
invalid address and `getNewLocalAccount(7)` returns the empty pointer. -/
theorem C1_stored_family_not_registered :
    (Wallet.new.addFamily storedDB 7).1 = 7 ∧ NewcoinAddress.isValid 7 = true ∧
    (Wallet.new.addFamily storedDB 7).2.1.mFamilies = [] ∧
    ((Wallet.new.addFamily storedDB 7).2.1.findFamilyPK
        (Wallet.new.addFamily storedDB 7).2.2 7).1 = NewcoinAddress.none ∧
    ((Wallet.new.addFamily storedDB 7).2.1.getNewLocalAccount sampleEnv 7).1 = none ∧
    sampleEnv.seedGenerator 6 = 7 ∧
    (Wallet.new.addFamilySeed sampleEnv storedDB 6 true).map (fun r => (r.1, r.2.1.mFamilies))
      = some (7, []) ∧
    (Wallet.new.addFamilySeed sampleEnv storedDB 6 false).map (fun r => (r.1, r.2.1.mFamilies))
      = some (7, []) := by
  refine ⟨by decide, by decide, by decide, by decide, by decide, by decide, by decide, ?_⟩
  have hr : LocalAccountFamily.readFamily storedDB 7
      = some (((LocalAccountFamily.new 7).setComment "saved").setSeq 3) := by decide
  have hs : sampleEnv.seedGenerator 6 = 7 := by decide
  simp [Wallet.addFamilySeed, Wallet.doPrivate, hs, hr, Wallet.new, mapFind, sampleEnv_unlock,
    LocalAccountFamily.isLocked, LocalAccountFamily.setSeq, LocalAccountFamily.setComment,
    LocalAccountFamily.new, familyResult]

/-- C2: on the registry holding the fresh family 7 (empty cache, nextSeq 0), `peekKey(7, 5)`
returns the address derived for (7, 5) and leaves nextSeq and the address index as they
were, but the cache of the family, which had no entry at 5, now holds the account of index 5:
the state is not the one before the call. -/
theorem C2_peekKey_fills_cache :
    mapFind oneFamily.mFamilies 7 = some (LocalAccountFamily.new 7) ∧
    (oneFamily.peekKey sampleEnv 7 5).1 = addressOf sampleEnv 7 5 ∧
    (oneFamily.peekKey sampleEnv 7 5).2.mAccounts = oneFamily.mAccounts ∧
    (mapFind (oneFamily.peekKey sampleEnv 7 5).2.mFamilies 7).map LocalAccountFamily.getSeq
      = some 0 ∧
    (mapFind (oneFamily.peekKey sampleEnv 7 5).2.mFamilies 7).map
        (fun fam => mapFind fam.mAccounts 5) = some (some (accountOf sampleEnv 7 5)) ∧
    (oneFamily.peekKey sampleEnv 7 5).2 ≠ oneFamily := by
  refine ⟨by decide, by decide, by decide, by decide, by decide, by decide⟩

/-- C3: with the family 7 registered, `parseAccount` leaves by the exception
`bad_lexical_cast` on the specifiers "7:abc", "7:1x" and "7:99999999999", whose family part
names the registered family and whose index part is not an `int`. -/
theorem C3_parseAccount_throws :
    sampleEnv.setFamilyGenerator "7" = some 7 ∧
    (oneFamily.findFamilyPK [] 7).1 = 7 ∧
    oneFamily.parseAccount sampleEnv [] "7:abc" = .error Thrown.bad_lexical_cast ∧
    oneFamily.parseAccount sampleEnv [] "7:1x" = .error Thrown.bad_lexical_cast ∧
    oneFamily.parseAccount sampleEnv [] "7:99999999999" = .error Thrown.bad_lexical_cast := by
  refine ⟨by decide, by decide, by decide, by decide, by decide⟩

/-! ## The consistency invariant of the registry -/

theorem LocalAccount.new_eq_accountOf (env : Env) (fam : LocalAccountFamily) (seq : Int) :
    LocalAccount.new env fam seq = accountOf env fam.mFamily seq := rfl

theorem accountOf_mFamily (env : Env) (g : NewcoinAddress) (seq : Int) :
    (accountOf env g seq).mFamily = g := rfl

theorem accountOf_mAccountFSeq (env : Env) (g : NewcoinAddress) (seq : Int) :
    (accountOf env g seq).mAccountFSeq = seq := rfl

theorem accountOf_mAccount (env : Env) (g : NewcoinAddress) (seq : Int) :
    (accountOf env g seq).mAccount = addressOf env g seq := rfl

/-- What `getAccount` returns and what it does to a family whose cache is consistent. -/
theorem getAccount_spec (env : Env) (fam : LocalAccountFamily) (seq : Int) (keep : Bool)
    (g : NewcoinAddress) (hg : fam.mFamily = g)
    (hc : ∀ p ∈ fam.mAccounts, p.2 = accountOf env g p.1) :
    (fam.getAccount env seq keep).1 = addressOf env g seq ∧
    (fam.getAccount env seq keep).2.mFamily = g ∧
    (fam.getAccount env seq keep).2.mLastSeq = fam.mLastSeq ∧
    (fam.getAccount env seq keep).2.mRootPrivateKey = fam.mRootPrivateKey ∧
    (fam.getAccount env seq keep).2.mComment = fam.mComment ∧
    (∀ p ∈ (fam.getAccount env seq keep).2.mAccounts, p.2 = accountOf env g p.1) ∧
    (∀ q ∈ fam.mAccounts, q ∈ (fam.getAccount env seq keep).2.mAccounts) ∧
    mapFind (fam.getAccount env seq keep).2.mAccounts seq = some (accountOf env g seq) ∧
    (∀ s, s ≠ seq →
      mapFind (fam.getAccount env seq keep).2.mAccounts s = mapFind fam.mAccounts s) := by
  unfold LocalAccountFamily.getAccount
  cases hf : mapFind fam.mAccounts seq with
  | some a =>
    have ha : a = accountOf env g seq := hc _ (mapFind_some_mem hf)
    subst ha
    exact ⟨rfl, hg, rfl, rfl, rfl, hc, fun q hq => hq, hf, fun s _ => rfl⟩
  | none =>
    subst hg
    refine ⟨rfl, rfl, rfl, rfl, rfl, ?_, ?_, ?_, ?_⟩
    · intro p hp
      rcases mem_mapInsert hp with rfl | hp
      · rfl
      · exact hc p hp
    · intro q hq
      exact mem_mapInsert_of_mem hq
    · show mapFind (mapInsert fam.mAccounts seq _) seq = _
      rw [mapFind_mapInsert, hf]
      simp [LocalAccount.new_eq_accountOf]
    · intro s hs
      show mapFind (mapInsert fam.mAccounts seq _) s = _
      rw [mapFind_mapInsert]
      simp [hs]

/-- Replacing a registered family by one with the same generator, a consistent cache and no
index lost keeps the registry consistent. -/
theorem WF_setFamily {env : Env} {w : Wallet} {g : NewcoinAddress}
    {fam fam1 : LocalAccountFamily} (h : w.WF env) (hf : mapFind w.mFamilies g = some fam)
    (hg : fam1.mFamily = g) (hc : ∀ p ∈ fam1.mAccounts, p.2 = accountOf env g p.1)
    (hsub : ∀ q ∈ fam.mAccounts, ∃ q1 ∈ fam1.mAccounts, q1.1 = q.1) :
    Wallet.WF env { w with mFamilies := mapSet w.mFamilies g fam1 } := by
  constructor
  · intro g1 f1 h1
    simp only [mapFind_mapSet] at h1
    by_cases hg1 : g1 = g
    · subst hg1
      simp only [if_true, hf, Option.map_some'] at h1
      cases h1
      exact ⟨hg, hc⟩
    · simp only [hg1, if_false] at h1
      exact h.families g1 f1 h1
  · intro p hp
    obtain ⟨h1, h2, fam0, h3, q, hq, hq1⟩ := h.accounts p hp
    refine ⟨h1, h2, ?_⟩
    simp only [mapFind_mapSet]
    by_cases hg1 : p.2.mFamily = g
    · rw [hg1] at h3
      rw [hf] at h3
      cases h3
      obtain ⟨q1, hq1m, hq1e⟩ := hsub q hq
      refine ⟨fam1, ?_, q1, hq1m, hq1e.trans hq1⟩
      simp [hg1, hf]
    · exact ⟨fam0, by simp [hg1, h3], q, hq, hq1⟩

/-- Registering the account of a cached index under its address keeps the registry
consistent. -/
theorem WF_insertAccount {env : Env} {w : Wallet} {g : NewcoinAddress}
    {fam : LocalAccountFamily} {seq : Int} (h : w.WF env)
    (hf : mapFind w.mFamilies g = some fam) (hq : ∃ q ∈ fam.mAccounts, q.1 = seq) :
    Wallet.WF env
      { w with mAccounts := mapInsert w.mAccounts (addressOf env g seq) (accountOf env g seq) } := by
  constructor
  · exact h.families
  · intro p hp
    rcases mem_mapInsert hp with rfl | hp
    · exact ⟨rfl, rfl, fam, hf, hq⟩
    · exact h.accounts p hp

/-- Registering a fresh family under an unused generator keeps the registry consistent. -/
theorem WF_insertFamily {env : Env} {w : Wallet} {g : NewcoinAddress} (h : w.WF env)
    (hf : mapFind w.mFamilies g = none) :
    Wallet.WF env
      { w with mFamilies := mapInsert w.mFamilies g (LocalAccountFamily.new g) } := by
  constructor
  · intro g1 f1 h1
    simp only [mapFind_mapInsert, hf, Option.getD_none] at h1
    by_cases hg1 : g1 = g
    · subst hg1
      simp only [if_true, Option.some.injEq] at h1
      subst h1
      exact ⟨rfl, fun p hp => by simp [LocalAccountFamily.new] at hp⟩
    · simp only [hg1, if_false] at h1
      exact h.families g1 f1 h1
  · intro p hp
    obtain ⟨h1, h2, fam0, h3, hq⟩ := h.accounts p hp
    refine ⟨h1, h2, fam0, ?_, hq⟩
    simp only [mapFind_mapInsert]
    have hne : p.2.mFamily ≠ g := by
      intro he; rw [he, hf] at h3; cases h3
    simp [hne, h3]

theorem WF_new (env : Env) : Wallet.new.WF env := by
  constructor
  · intro g fam h; simp [Wallet.new, mapFind] at h
  · intro p hp; simp [Wallet.new] at hp

/-- The result and the state of `getLocalAccount(family, seq)` on a registered family, in
one expression. -/
theorem getLocalAccount_eq (env : Env) (w : Wallet) (g : NewcoinAddress) (seq : Int)
    (fam : LocalAccountFamily) (hf : mapFind w.mFamilies g = some fam) :
    w.getLocalAccount env g seq =
      (some ((mapFind w.mAccounts (fam.getAccount env seq true).1).getD
          (LocalAccount.new env (fam.getAccount env seq true).2 seq)),
        { mFamilies := mapSet w.mFamilies g (fam.getAccount env seq true).2
          mAccounts := mapInsert w.mAccounts (fam.getAccount env seq true).1
            (LocalAccount.new env (fam.getAccount env seq true).2 seq) }) := by
  unfold Wallet.getLocalAccount
  rw [hf]
  simp only
  cases hm : mapFind w.mAccounts (fam.getAccount env seq true).1 with
  | some a => simp [mapInsert, hm]
  | none => simp [mapInsert, hm]

/-- The result and the state of `getNewLocalAccount(family)` on a registered family, in one
expression. -/
theorem getNewLocalAccount_eq (env : Env) (w : Wallet) (g : NewcoinAddress)
    (fam : LocalAccountFamily) (hf : mapFind w.mFamilies g = some fam) :
    w.getNewLocalAccount env g =
      (some ((mapFind w.mAccounts (fam.getAccount env (toInt32 fam.getSeq) true).1).getD
          (LocalAccount.new env
            ((fam.getAccount env (toInt32 fam.getSeq) true).2.setSeq (fam.getSeq + 1))
            (toInt32 fam.getSeq))),
        { mFamilies := mapSet w.mFamilies g
            ((fam.getAccount env (toInt32 fam.getSeq) true).2.setSeq (fam.getSeq + 1))
          mAccounts := mapInsert w.mAccounts (fam.getAccount env (toInt32 fam.getSeq) true).1
            (LocalAccount.new env
              ((fam.getAccount env (toInt32 fam.getSeq) true).2.setSeq (fam.getSeq + 1))
              (toInt32 fam.getSeq)) }) := by
  unfold Wallet.getNewLocalAccount
  rw [hf]
  simp only
  cases hm : mapFind w.mAccounts (fam.getAccount env (toInt32 fam.getSeq) true).1 with
  | some a => simp [mapInsert, hm]
  | none => simp [mapInsert, hm]

/-- A registered family gets a new value with the same generator and a cache that is
consistent, lost no index and holds `seq`; then the account of `seq` is registered. The
registry stays consistent. -/
theorem WF_touch {env : Env} {w : Wallet} {g : NewcoinAddress} {fam fam1 : LocalAccountFamily}
    {seq : Int} (h : w.WF env) (hf : mapFind w.mFamilies g = some fam)
    (hg : fam1.mFamily = g) (hc : ∀ p ∈ fam1.mAccounts, p.2 = accountOf env g p.1)
    (hsub : ∀ q ∈ fam.mAccounts, q ∈ fam1.mAccounts)
    (hseq : ∃ q ∈ fam1.mAccounts, q.1 = seq) :
    Wallet.WF env
      { mFamilies := mapSet w.mFamilies g fam1
        mAccounts := mapInsert w.mAccounts (addressOf env g seq) (accountOf env g seq) } := by
  have h1 : Wallet.WF env { w with mFamilies := mapSet w.mFamilies g fam1 } :=
    WF_setFamily h hf hg hc (fun q hq => ⟨q, hsub q hq, rfl⟩)
  have hf1 : mapFind ({ w with mFamilies := mapSet w.mFamilies g fam1 } : Wallet).mFamilies g
      = some fam1 := by
    simp [mapFind_mapSet, hf]
  exact WF_insertAccount h1 hf1 hseq

theorem WF_getLocalAccount {env : Env} {w : Wallet} (h : w.WF env) (g : NewcoinAddress)
    (seq : Int) : (w.getLocalAccount env g seq).2.WF env := by
  cases hf : mapFind w.mFamilies g with
  | none => simp [Wallet.getLocalAccount, hf, h]
  | some fam =>
    obtain ⟨hg, hc⟩ := h.families g fam hf
    obtain ⟨e1, e2, _, _, _, e6, e7, e8, _⟩ := getAccount_spec env fam seq true g hg hc
    rw [getLocalAccount_eq env w g seq fam hf]
    simp only [LocalAccount.new_eq_accountOf, e1, e2]
    exact WF_touch h hf e2 e6 e7 ⟨_, mapFind_some_mem e8, rfl⟩

theorem WF_getNewLocalAccount {env : Env} {w : Wallet} (h : w.WF env) (g : NewcoinAddress) :
    (w.getNewLocalAccount env g).2.WF env := by
  cases hf : mapFind w.mFamilies g with
  | none => simp [Wallet.getNewLocalAccount, hf, h]
  | some fam =>
    obtain ⟨hg, hc⟩ := h.families g fam hf
    obtain ⟨e1, e2, _, _, _, e6, e7, e8, _⟩ :=
      getAccount_spec env fam (toInt32 fam.getSeq) true g hg hc
    rw [getNewLocalAccount_eq env w g fam hf]
    simp only [LocalAccount.new_eq_accountOf, e1]
    have e2' : ((fam.getAccount env (toInt32 fam.getSeq) true).2.setSeq (fam.getSeq + 1)).mFamily
        = g := e2
    rw [e2']
    exact WF_touch h hf e2' e6 e7 ⟨_, mapFind_some_mem e8, rfl⟩

theorem WF_peekKey {env : Env} {w : Wallet} (h : w.WF env) (g : NewcoinAddress) (seq : Int) :
    (w.peekKey env g seq).2.WF env := by
  cases hf : mapFind w.mFamilies g with
  | none => simp [Wallet.peekKey, hf, h]
  | some fam =>
    obtain ⟨hg, hc⟩ := h.families g fam hf
    obtain ⟨_, e2, _, _, _, e6, e7, _, _⟩ := getAccount_spec env fam seq false g hg hc
    simp only [Wallet.peekKey, hf]
    exact WF_setFamily h hf e2 e6 (fun q hq => ⟨q, e7 q hq, rfl⟩)

theorem lock_fields (fam : LocalAccountFamily) :
    fam.lock.mAccounts = fam.mAccounts ∧ fam.lock.mFamily = fam.mFamily ∧
    fam.lock.mLastSeq = fam.mLastSeq ∧ fam.lock.mComment = fam.mComment ∧
    fam.lock.mRootPrivateKey = none := by
  unfold LocalAccountFamily.lock
  cases h : fam.mRootPrivateKey with
  | none => simp [h]
  | some r => simp

theorem unlock_fields {env : Env} {fam fam1 : LocalAccountFamily} {r : Nat}
    (h : fam.unlock env r = some fam1) :
    fam1.mAccounts = fam.mAccounts ∧ fam1.mFamily = fam.mFamily ∧
    fam1.mLastSeq = fam.mLastSeq ∧ fam1.mComment = fam.mComment := by
  unfold LocalAccountFamily.unlock at h
  by_cases hr : fam.mRootPrivateKey = none
  · simp only [hr, if_true] at h
    split at h
    · cases h; exact ⟨rfl, rfl, rfl, rfl⟩
    · cases h
  · simp only [hr, if_false] at h
    cases hk : fam.mRootPrivateKey with
    | none => exact absurd hk hr
    | some r0 =>
      rw [hk] at h
      simp only at h
      split at h
      · cases h; exact ⟨rfl, rfl, rfl, rfl⟩
      · cases h

theorem WF_lock {env : Env} {w : Wallet} (h : w.WF env) (g : NewcoinAddress) :
    (w.lock g).2.WF env := by
  cases hf : mapFind w.mFamilies g with
  | none => simp [Wallet.lock, hf, h]
  | some fam =>
    obtain ⟨hg, hc⟩ := h.families g fam hf
    obtain ⟨l1, l2, _⟩ := lock_fields fam
    simp only [Wallet.lock, hf]
    refine WF_setFamily h hf (l2.trans hg) ?_ ?_
    · rw [l1]; exact hc
    · rw [l1]; exact fun q hq => ⟨q, hq, rfl⟩

theorem WF_lockAll {env : Env} {w : Wallet} (h : w.WF env) : w.lockAll.WF env := by
  constructor
  · intro g f1 h1
    simp only [Wallet.lockAll, mapFind_map] at h1
    cases hf : mapFind w.mFamilies g with
    | none => simp [hf] at h1
    | some fam =>
      simp only [hf, Option.map_some', Option.some.injEq] at h1
      subst h1
      obtain ⟨hg, hc⟩ := h.families g fam hf
      obtain ⟨l1, l2, _⟩ := lock_fields fam
      exact ⟨l2.trans hg, by rw [l1]; exact hc⟩
  · intro p hp
    obtain ⟨h1, h2, fam0, h3, q, hq, hq1⟩ := h.accounts p hp
    refine ⟨h1, h2, fam0.lock, ?_, q, ?_, hq1⟩
    · simp [Wallet.lockAll, mapFind_map, h3]
    · rw [(lock_fields fam0).1]; exact hq

theorem WF_delFamily {env : Env} {w : Wallet} (h : w.WF env) (g : NewcoinAddress) :
    (w.delFamily g).WF env := by
  cases hf : mapFind w.mFamilies g with
  | none => simp [Wallet.delFamily, hf, h]
  | some fam =>
    obtain ⟨hg, hc⟩ := h.families g fam hf
    simp only [Wallet.delFamily, hf]
    constructor
    · intro g1 f1 h1
      simp only [mapFind_mapErase] at h1
      by_cases hg1 : g1 = g
      · simp [hg1] at h1
      · simp only [hg1, if_false] at h1
        exact h.families g1 f1 h1
    · intro p hp
      rw [mem_foldl_mapErase] at hp
      obtain ⟨hp, hne⟩ := hp
      obtain ⟨h1, h2, fam0, h3, q, hq, hq1⟩ := h.accounts p hp
      refine ⟨h1, h2, fam0, ?_, q, hq, hq1⟩
      simp only [mapFind_mapErase]
      have hne1 : p.2.mFamily ≠ g := by
        intro he
        rw [he, hf] at h3
        cases h3
        apply hne q hq
        have hq2 : q.2 = accountOf env g q.1 := hc q hq
        rw [h1, h2, LocalAccount.getAddress, hq2, he, hq1]
      simp [hne1, h3]

/-- A lookup-only `doPublic` (`do_create = false`) returns what the family map holds and
changes nothing. -/
theorem doPublic_lookup (w : Wallet) (db : WalletDB) (g : NewcoinAddress) (d : Bool) :
    w.doPublic db g false d = (mapFind w.mFamilies g, w, db) := by
  unfold Wallet.doPublic
  cases hf : mapFind w.mFamilies g with
  | none => simp
  | some fam => simp

/-- The registry after `doPublic`: unchanged, or with the fresh family added under an unused
generator. -/
theorem doPublic_wallet (w : Wallet) (db : WalletDB) (g : NewcoinAddress) (c d : Bool) :
    (w.doPublic db g c d).2.1 = w ∨
    (mapFind w.mFamilies g = none ∧
      (w.doPublic db g c d).2.1 =
        { w with mFamilies := mapInsert w.mFamilies g (LocalAccountFamily.new g) }) := by
  unfold Wallet.doPublic
  cases hf : mapFind w.mFamilies g with
  | some fam => left; rfl
  | none =>
    simp only
    cases c with
    | false => left; rfl
    | true =>
      cases d with
      | false => right; exact ⟨by simp, by simp⟩
      | true =>
        cases hrf : LocalAccountFamily.readFamily db g with
        | none => right; exact ⟨by simp, by simp⟩
        | some f => left; simp

theorem WF_doPublic {env : Env} {w : Wallet} (h : w.WF env) (db : WalletDB)
    (g : NewcoinAddress) (c d : Bool) : (w.doPublic db g c d).2.1.WF env := by
  rcases doPublic_wallet w db g c d with e | ⟨hf, e⟩
  · rw [e]; exact h
  · rw [e]; exact WF_insertFamily h hf

theorem WF_unlockFamily {env : Env} {w : Wallet} {g : NewcoinAddress}
    {fam fam1 : LocalAccountFamily} {r : Nat} (h : w.WF env)
    (hf : mapFind w.mFamilies g = some fam) (hu : fam.unlock env r = some fam1) :
    Wallet.WF env { w with mFamilies := mapSet w.mFamilies g fam1 } := by
  obtain ⟨hg, hc⟩ := h.families g fam hf
  obtain ⟨u1, u2, _, _⟩ := unlock_fields hu
  refine WF_setFamily h hf (u2.trans hg) ?_ ?_
  · rw [u1]; exact hc
  · rw [u1]; exact fun q hq => ⟨q, hq, rfl⟩

theorem WF_doPrivate {env : Env} {w : Wallet} (h : w.WF env) (db : WalletDB)
    (seed : NewcoinAddress) (c u : Bool) (r : Option LocalAccountFamily × Wallet × WalletDB)
    (hr : w.doPrivate env db seed c u = some r) : r.2.1.WF env := by
  unfold Wallet.doPrivate at hr
  cases hf : mapFind w.mFamilies (env.seedGenerator seed) with
  | some fam =>
    simp only [hf] at hr
    split at hr
    · split at hr
      · cases hr
      · rename_i fam1 hu
        cases hr
        exact WF_unlockFamily h hf hu
    · cases hr; exact h
  | none =>
    simp only [hf] at hr
    cases hd : LocalAccountFamily.readFamily db (env.seedGenerator seed) with
    | some fam =>
      simp only [hd] at hr
      split at hr
      · split at hr
        · cases hr
        · cases hr; exact h
      · cases hr; exact h
    | none =>
      simp only [hd] at hr
      cases c with
      | false =>
        simp only [Bool.not_false, if_true] at hr
        cases hr; exact h
      | true =>
        simp only [Bool.not_true, Bool.false_eq_true, if_false] at hr
        generalize hgen : env.seedGenerator seed = g at hr hf
        have h1 := WF_insertFamily (g := g) h hf
        have hf1 : mapFind (mapInsert w.mFamilies g (LocalAccountFamily.new g)) g
            = some (LocalAccountFamily.new g) := by
          simp [mapFind_mapInsert, hf]
        split at hr
        · split at hr
          · cases hr
          · rename_i fam1 hu
            cases hr
            exact WF_unlockFamily h1 hf1 hu
        · cases hr; exact h1

theorem WF_loadRow {env : Env} {w : Wallet} (h : w.WF env) (db : WalletDB) (row : FamilyRow) :
    (w.loadRow db row).WF env := by
  unfold Wallet.loadRow
  have h1 := WF_doPublic h db row.FamilyGenerator true false
  cases hd : w.doPublic db row.FamilyGenerator true false with
  | mk fo rest =>
    obtain ⟨w1, db1⟩ := rest
    rw [hd] at h1
    cases fo with
    | none => exact h1
    | some f =>
      simp only
      cases hf : mapFind w1.mFamilies row.FamilyGenerator with
      | none =>
        -- the family map does not hold the generator: the update changes nothing
        have hnm : ∀ p ∈ w1.mFamilies, p.1 ≠ row.FamilyGenerator := mapFind_none_not_mem hf
        constructor
        · intro g1 f1 hg1
          simp only [mapFind_mapSet, hf, Option.map_none'] at hg1
          by_cases hg : g1 = row.FamilyGenerator
          · simp [hg] at hg1
          · simp only [hg, if_false] at hg1
            exact h1.families g1 f1 hg1
        · intro p hp
          obtain ⟨a1, a2, fam0, a3, hq⟩ := h1.accounts p hp
          refine ⟨a1, a2, fam0, ?_, hq⟩
          have hne : p.2.mFamily ≠ row.FamilyGenerator := by
            intro he; rw [he, hf] at a3; cases a3
          simp [mapFind_mapSet, hne, a3]
      | some fam =>
        -- the family returned by doPublic is the one the map holds
        have hfam : f = fam := by
          have := hd
          unfold Wallet.doPublic at this
          cases hw : mapFind w.mFamilies row.FamilyGenerator with
          | some f0 =>
            simp only [hw] at this
            cases this
            rw [hw] at hf
            cases hf
            rfl
          | none =>
            simp [hw] at this
            obtain ⟨e1, e2, _⟩ := this
            subst e1
            subst e2
            simp [mapFind_mapInsert, hw] at hf
            exact hf
        subst hfam
        obtain ⟨hg, hc⟩ := h1.families _ f hf
        exact WF_setFamily h1 hf hg hc (fun q hq => ⟨q, hq, rfl⟩)

theorem WF_load {env : Env} (db rows : WalletDB) :
    ∀ w : Wallet, w.WF env → (rows.foldl (Wallet.loadRow db) w).WF env := by
  induction rows with
  | nil => intro w h; exact h
  | cons row rows ih => intro w h; exact ih _ (WF_loadRow h db row)

theorem findFamilyPK_eq (w : Wallet) (db : WalletDB) (g : NewcoinAddress) :
    w.findFamilyPK db g = (familyResult (mapFind w.mFamilies g), w, db) := by
  simp [Wallet.findFamilyPK, doPublic_lookup]

/-- The registry after `parseAccount` returns: unchanged, or the one `getLocalAccount` leaves
for some family and index; the database is unchanged. -/
theorem parseAccount_state {env : Env} {w : Wallet} {db : WalletDB} {s : String}
    {r : Option LocalAccount × Wallet × WalletDB} (hr : w.parseAccount env db s = .ok r) :
    r.2.2 = db ∧ (r.2.1 = w ∨ ∃ g seq, r.2.1 = (w.getLocalAccount env g seq).2) := by
  unfold Wallet.parseAccount at hr
  split at hr
  · split at hr
    · cases hr; exact ⟨rfl, Or.inl rfl⟩
    · cases hr; exact ⟨rfl, Or.inl rfl⟩
  · split at hr
    · cases hr; exact ⟨rfl, Or.inl rfl⟩
    · split at hr
      · cases hr; exact ⟨rfl, Or.inl rfl⟩
      · have hfound : ∀ o : Option NewcoinAddress,
            (match o with
              | some familyParsed => w.findFamilyPK db familyParsed
              | none => (NewcoinAddress.none, w, db)).2 = (w, db) := by
          intro o
          cases o with
          | none => rfl
          | some g => simp [findFamilyPK_eq]
        rename_i family c seq hspan hfe hse
        generalize hfd : (match env.setFamilyGenerator (String.mk family) with
              | some familyParsed => w.findFamilyPK db familyParsed
              | none => (NewcoinAddress.none, w, db)) = found at hr
        have h2 : found.2 = (w, db) := by rw [← hfd]; exact hfound _
        obtain ⟨ff, w1, db1⟩ := found
        simp only [Prod.mk.injEq] at h2
        obtain ⟨rfl, rfl⟩ := h2
        simp only at hr
        split at hr
        · split at hr
          · cases hr
          · rename_i n hn
            cases hr
            exact ⟨rfl, Or.inr ⟨ff, n, rfl⟩⟩
        · cases hr; exact ⟨rfl, Or.inl rfl⟩

/-- Every operation keeps the registry consistent. -/
theorem WF_step {env : Env} {s s1 : State} (op : Op) (h : s.1.WF env)
    (hs : op.step env s = some s1) : s1.1.WF env := by
  cases op with
  | addFamilySeed seed lk =>
    simp only [Op.step, Wallet.addFamilySeed] at hs
    cases hd : s.1.doPrivate env s.2 seed true (!lk) with
    | none => simp [hd] at hs
    | some r =>
      simp only [hd, Option.some.injEq] at hs
      subst hs
      exact WF_doPrivate h _ _ _ _ r hd
  | addFamily g =>
    simp only [Op.step, Wallet.addFamily, Option.some.injEq] at hs
    subst hs
    exact WF_doPublic h _ _ _ _
  | findFamilyPK g =>
    simp only [Op.step, Wallet.findFamilyPK, Option.some.injEq] at hs
    subst hs
    exact WF_doPublic h _ _ _ _
  | getNewLocalAccount g =>
    simp only [Op.step, Option.some.injEq] at hs
    subst hs
    exact WF_getNewLocalAccount h g
  | getLocalAccount g seq =>
    simp only [Op.step, Option.some.injEq] at hs
    subst hs
    exact WF_getLocalAccount h g seq
  | getLocalAccountByID a =>
    simp only [Op.step, Option.some.injEq] at hs
    subst hs
    exact h
  | parseAccount sp =>
    simp only [Op.step] at hs
    cases hp : s.1.parseAccount env s.2 sp with
    | error e =>
      simp only [hp, Option.some.injEq] at hs
      subst hs
      exact h
    | ok r =>
      simp only [hp, Option.some.injEq] at hs
      subst hs
      rcases (parseAccount_state hp).2 with e | ⟨g, seq, e⟩
      · rw [e]; exact h
      · rw [e]; exact WF_getLocalAccount h g seq
  | peekKey g seq =>
    simp only [Op.step, Option.some.injEq] at hs
    subst hs
    exact WF_peekKey h g seq
  | delFamily g =>
    simp only [Op.step, Option.some.injEq] at hs
    subst hs
    exact WF_delFamily h g
  | lock g =>
    simp only [Op.step, Option.some.injEq] at hs
    subst hs
    exact WF_lock h g
  | lockAll =>
    simp only [Op.step, Option.some.injEq] at hs
    subst hs
    exact WF_lockAll h
  | load =>
    simp only [Op.step, Option.some.injEq] at hs
    subst hs
    exact WF_load _ _ _ h

/-- Every reachable registry is consistent. -/
theorem Reachable.wf {env : Env} {s : State} (h : Reachable env s) : s.1.WF env := by
  induction h with
  | start db => exact WF_new env
  | step op s s1 _ hs ih => exact WF_step op ih hs

/-! ## Allocation and lookup of accounts on a consistent registry -/

theorem toInt32_of_lt {n : Nat} (h : n < 2 ^ 31) : toInt32 n = (n : Int) := by
  unfold toInt32
  have h1 : n % 2 ^ 32 = n := Nat.mod_eq_of_lt (by omega)
  rw [h1]
  have h2 : n < 2147483648 := by norm_num at h; exact h
  simp [h2]

theorem toUInt32_natCast {n : Nat} (h : n < 2 ^ 32) : toUInt32 (n : Int) = n := by
  unfold toUInt32
  have h1 : ((n : Int) % 2 ^ 32) = (n : Int) := Int.emod_eq_of_lt (by omega) (by omega)
  rw [h1]
  simp

theorem intCode_injective {i j : Int} (h : intCode i = intCode j) : i = j := by
  cases i <;> cases j <;> simp only [intCode] at h <;> first | omega | (congr 1; omega)

theorem sampleEnv_collisionFree : sampleEnv.CollisionFree := by
  intro g g1 i i1 h
  have h1 : Nat.pair g (intCode i) + 1 = Nat.pair g1 (intCode i1) + 1 := h
  have h2 : Nat.pair g (intCode i) = Nat.pair g1 (intCode i1) := by omega
  rw [Nat.pair_eq_pair] at h2
  exact ⟨h2.1, intCode_injective h2.2⟩

/-- On a consistent registry with collision-free derivation, the address index holds under
the address derived for (g, seq) nothing but the account of (g, seq). -/
theorem WF_find_account {env : Env} {w : Wallet} (h : w.WF env) (hcf : env.CollisionFree)
    {g : NewcoinAddress} {seq : Int} {a : LocalAccount}
    (hfind : mapFind w.mAccounts (addressOf env g seq) = some a) : a = accountOf env g seq := by
  obtain ⟨h1, h2, _⟩ := h.accounts _ (mapFind_some_mem hfind)
  simp only at h1 h2
  have h3 : addressOf env a.mFamily a.mAccountFSeq = addressOf env g seq := by
    rw [h1]
    conv_rhs => rw [h2]
    rfl
  obtain ⟨e1, e2⟩ := hcf _ _ _ _ h3
  rw [h2, e1, e2]

/-- What `getLocalAccount(g, seq)` returns and leaves on a consistent registry. -/
theorem getLocalAccount_spec {env : Env} {w : Wallet} (h : w.WF env) (hcf : env.CollisionFree)
    {g : NewcoinAddress} {fam : LocalAccountFamily} (hf : mapFind w.mFamilies g = some fam)
    (seq : Int) :
    (w.getLocalAccount env g seq).1 = some (accountOf env g seq) ∧
    mapFind (w.getLocalAccount env g seq).2.mFamilies g
      = some (fam.getAccount env seq true).2 ∧
    (∀ g1, g1 ≠ g →
      mapFind (w.getLocalAccount env g seq).2.mFamilies g1 = mapFind w.mFamilies g1) ∧
    mapFind (w.getLocalAccount env g seq).2.mAccounts (addressOf env g seq)
      = some (accountOf env g seq) := by
  obtain ⟨hg, hc⟩ := h.families g fam hf
  obtain ⟨e1, e2, _⟩ := getAccount_spec env fam seq true g hg hc
  rw [getLocalAccount_eq env w g seq fam hf]
  simp only [LocalAccount.new_eq_accountOf, e1, e2]
  have hget : (mapFind w.mAccounts (addressOf env g seq)).getD (accountOf env g seq)
      = accountOf env g seq := by
    cases hm : mapFind w.mAccounts (addressOf env g seq) with
    | none => rfl
    | some a => exact WF_find_account h hcf hm
  refine ⟨by rw [hget], ?_, ?_, ?_⟩
  · simp [mapFind_mapSet, hf]
  · intro g1 hg1
    simp [mapFind_mapSet, hg1]
  · rw [mapFind_mapInsert]
    simp [hget]

/-- What `getNewLocalAccount(g)` returns and leaves on a consistent registry. -/
theorem getNewLocalAccount_spec {env : Env} {w : Wallet} (h : w.WF env)
    (hcf : env.CollisionFree) {g : NewcoinAddress} {fam : LocalAccountFamily}
    (hf : mapFind w.mFamilies g = some fam) :
    (w.getNewLocalAccount env g).1 = some (accountOf env g (toInt32 fam.getSeq)) ∧
    mapFind (w.getNewLocalAccount env g).2.mFamilies g
      = some ((fam.getAccount env (toInt32 fam.getSeq) true).2.setSeq (fam.getSeq + 1)) ∧
    (∀ g1, g1 ≠ g →
      mapFind (w.getNewLocalAccount env g).2.mFamilies g1 = mapFind w.mFamilies g1) ∧
    mapFind (w.getNewLocalAccount env g).2.mAccounts (addressOf env g (toInt32 fam.getSeq))
      = some (accountOf env g (toInt32 fam.getSeq)) := by
  obtain ⟨hg, hc⟩ := h.families g fam hf
  obtain ⟨e1, e2, _⟩ := getAccount_spec env fam (toInt32 fam.getSeq) true g hg hc
  have e2' : ((fam.getAccount env (toInt32 fam.getSeq) true).2.setSeq (fam.getSeq + 1)).mFamily
      = g := e2
  rw [getNewLocalAccount_eq env w g fam hf]
  simp only [LocalAccount.new_eq_accountOf, e1, e2']
  have hget : (mapFind w.mAccounts (addressOf env g (toInt32 fam.getSeq))).getD
      (accountOf env g (toInt32 fam.getSeq)) = accountOf env g (toInt32 fam.getSeq) := by
    cases hm : mapFind w.mAccounts (addressOf env g (toInt32 fam.getSeq)) with
    | none => rfl
    | some a => exact WF_find_account h hcf hm
  refine ⟨by rw [hget], ?_, ?_, ?_⟩
  · simp [mapFind_mapSet, hf]
  · intro g1 hg1
    simp [mapFind_mapSet, hg1]
  · rw [mapFind_mapInsert]
    simp [hget]

theorem getSeq_setSeq (fam : LocalAccountFamily) (s : Nat) :
    (fam.setSeq s).getSeq = s % 2 ^ 32 := by
  simp [LocalAccountFamily.getSeq, LocalAccountFamily.setSeq]

theorem reachable_oneFamily : Reachable sampleEnv (oneFamily, oneFamilyDB) :=
  Reachable.step (Op.addFamily 7) (Wallet.new, []) _ (Reachable.start []) (by decide)

theorem reachable_lastSeqWallet : Reachable sampleEnv (lastSeqWallet, lastSeqDB) :=
  Reachable.step Op.load (Wallet.new, lastSeqDB) _ (Reachable.start lastSeqDB) (by decide)

/-! ## C4: allocation of the next account -/

/-- C4, as stated, fails at the last counter value: on the reachable registry whose family 7
has nextSeq 4294967295, `getNewLocalAccount(7)` returns an account of index -1 (not
4294967295) and leaves nextSeq 0 (not 4294967296). -/
theorem C4_counterexample_last_counter :
    Reachable sampleEnv (lastSeqWallet, lastSeqDB) ∧
    (mapFind lastSeqWallet.mFamilies 7).map LocalAccountFamily.getSeq = some 4294967295 ∧
    (lastSeqWallet.getNewLocalAccount sampleEnv 7).1.map LocalAccount.mAccountFSeq
      = some (-1) ∧
    (lastSeqWallet.getNewLocalAccount sampleEnv 7).1.map LocalAccount.mAccountFSeq
      ≠ some 4294967295 ∧
    (mapFind (lastSeqWallet.getNewLocalAccount sampleEnv 7).2.mFamilies 7).map
      LocalAccountFamily.getSeq = some 0 ∧
    (mapFind (lastSeqWallet.getNewLocalAccount sampleEnv 7).2.mFamilies 7).map
      LocalAccountFamily.getSeq ≠ some (4294967295 + 1) := by
  refine ⟨reachable_lastSeqWallet, by decide, by decide, by decide, by decide, by decide⟩

/-- C4 (amended): with collision-free address derivation, on every reachable registry in
which family `g` is registered with nextSeq `n < 2^31`, `getNewLocalAccount(g)` returns an
account of family `g` and index `n` whose address is the one derived for `(g, n)`;
afterwards nextSeq of `g` is `n + 1`, the cache of `g` has an entry at `n`, the address index
maps that address to the returned account (`getLocalAccount(address)` returns it), and every
other family is unchanged. -/
theorem C4_getNewLocalAccount (env : Env) (hcf : env.CollisionFree) (s : State)
    (hr : Reachable env s) (g : NewcoinAddress) (fam : LocalAccountFamily) (n : Nat)
    (hf : mapFind s.1.mFamilies g = some fam) (hn : fam.getSeq = n) (hb : n < 2 ^ 31) :
    ∃ a, (s.1.getNewLocalAccount env g).1 = some a ∧
      a.mFamily = g ∧ a.mAccountFSeq = (n : Int) ∧ a.getAddress = addressOf env g n ∧
      (∃ fam1, mapFind (s.1.getNewLocalAccount env g).2.mFamilies g = some fam1 ∧
        fam1.getSeq = n + 1 ∧ (mapFind fam1.mAccounts (n : Int)).isSome = true) ∧
      (s.1.getNewLocalAccount env g).2.getLocalAccountByID a.getAddress = some a ∧
      ∀ g1, g1 ≠ g →
        mapFind (s.1.getNewLocalAccount env g).2.mFamilies g1 = mapFind s.1.mFamilies g1 := by
  have hw := hr.wf
  obtain ⟨hg, hc⟩ := hw.families g fam hf
  obtain ⟨r1, r2, r3, r4⟩ := getNewLocalAccount_spec hw hcf hf
  obtain ⟨_, _, e3, _, _, _, _, e8, _⟩ :=
    getAccount_spec env fam (toInt32 fam.getSeq) true g hg hc
  have hi : toInt32 fam.getSeq = (n : Int) := by rw [hn]; exact toInt32_of_lt hb
  rw [hi] at r1 r2 r4 e8 e3
  refine ⟨accountOf env g n, r1, rfl, rfl, rfl, ⟨_, r2, ?_, ?_⟩, r4, r3⟩
  · rw [getSeq_setSeq, hn]
    exact Nat.mod_eq_of_lt (by omega)
  · show (mapFind (fam.getAccount env (n : Int) true).2.mAccounts (n : Int)).isSome = true
    rw [e8]; rfl

/-- C4 (amended) at the registry holding the fresh family 7, whose nextSeq is 0. -/
theorem C4_getNewLocalAccount_witness :
    sampleEnv.CollisionFree ∧ Reachable sampleEnv (oneFamily, oneFamilyDB) ∧
    mapFind oneFamily.mFamilies 7 = some (LocalAccountFamily.new 7) ∧
    (LocalAccountFamily.new 7).getSeq = 0 ∧ 0 < 2 ^ 31 ∧
    ∃ a, (oneFamily.getNewLocalAccount sampleEnv 7).1 = some a ∧
      a.mFamily = 7 ∧ a.mAccountFSeq = ((0 : Nat) : Int) ∧
      a.getAddress = addressOf sampleEnv 7 ((0 : Nat) : Int) ∧
      (∃ fam1, mapFind (oneFamily.getNewLocalAccount sampleEnv 7).2.mFamilies 7 = some fam1 ∧
        fam1.getSeq = 0 + 1 ∧ (mapFind fam1.mAccounts ((0 : Nat) : Int)).isSome = true) ∧
      (oneFamily.getNewLocalAccount sampleEnv 7).2.getLocalAccountByID a.getAddress = some a ∧
      ∀ g1, g1 ≠ 7 →
        mapFind (oneFamily.getNewLocalAccount sampleEnv 7).2.mFamilies g1
          = mapFind oneFamily.mFamilies g1 :=
  ⟨sampleEnv_collisionFree, reachable_oneFamily, by decide, by decide, by decide,
    C4_getNewLocalAccount sampleEnv sampleEnv_collisionFree (oneFamily, oneFamilyDB)
      reachable_oneFamily 7 (LocalAccountFamily.new 7) 0 (by decide) (by decide) (by decide)⟩

/-! ## C5: successive allocations -/

/-- The method `getAccount` touches nothing but the cache. -/
theorem getAccount_fields (env : Env) (fam : LocalAccountFamily) (seq : Int) (keep : Bool) :
    (fam.getAccount env seq keep).2.mFamily = fam.mFamily ∧
    (fam.getAccount env seq keep).2.mLastSeq = fam.mLastSeq ∧
    (fam.getAccount env seq keep).2.mRootPrivateKey = fam.mRootPrivateKey ∧
    (fam.getAccount env seq keep).2.mComment = fam.mComment := by
  unfold LocalAccountFamily.getAccount
  cases mapFind fam.mAccounts seq with
  | some a => exact ⟨rfl, rfl, rfl, rfl⟩
  | none => exact ⟨rfl, rfl, rfl, rfl⟩

/-- The family map after `getNewLocalAccount`, family by family. -/
theorem getNewLocalAccount_find (env : Env) (w : Wallet) (g g1 : NewcoinAddress) :
    mapFind (w.getNewLocalAccount env g1).2.mFamilies g =
      if g = g1 then
        (mapFind w.mFamilies g1).map (fun fam =>
          (fam.getAccount env (toInt32 fam.getSeq) true).2.setSeq (fam.getSeq + 1))
      else mapFind w.mFamilies g := by
  cases hf : mapFind w.mFamilies g1 with
  | none =>
    by_cases hg : g = g1
    · subst hg; simp [Wallet.getNewLocalAccount, hf]
    · simp [Wallet.getNewLocalAccount, hf, hg]
  | some fam =>
    rw [getNewLocalAccount_eq env w g1 fam hf]
    simp [mapFind_mapSet, hf]

/-- The family map after `getLocalAccount(family, seq)`, family by family. -/
theorem getLocalAccount_find (env : Env) (w : Wallet) (g g1 : NewcoinAddress) (seq : Int) :
    mapFind (w.getLocalAccount env g1 seq).2.mFamilies g =
      if g = g1 then (mapFind w.mFamilies g1).map (fun fam => (fam.getAccount env seq true).2)
      else mapFind w.mFamilies g := by
  cases hf : mapFind w.mFamilies g1 with
  | none =>
    by_cases hg : g = g1
    · subst hg; simp [Wallet.getLocalAccount, hf]
    · simp [Wallet.getLocalAccount, hf, hg]
  | some fam =>
    rw [getLocalAccount_eq env w g1 seq fam hf]
    simp [mapFind_mapSet, hf]

/-- The family map after `peekKey`, family by family. -/
theorem peekKey_find (env : Env) (w : Wallet) (g g1 : NewcoinAddress) (seq : Int) :
    mapFind (w.peekKey env g1 seq).2.mFamilies g =
      if g = g1 then (mapFind w.mFamilies g1).map (fun fam => (fam.getAccount env seq false).2)
      else mapFind w.mFamilies g := by
  cases hf : mapFind w.mFamilies g1 with
  | none =>
    by_cases hg : g = g1
    · subst hg; simp [Wallet.peekKey, hf]
    · simp [Wallet.peekKey, hf, hg]
  | some fam => simp [Wallet.peekKey, hf, mapFind_mapSet]

/-- The family map after `lock(family)`, family by family. -/
theorem lock_find (w : Wallet) (g g1 : NewcoinAddress) :
    mapFind (w.lock g1).2.mFamilies g =
      if g = g1 then (mapFind w.mFamilies g1).map LocalAccountFamily.lock
      else mapFind w.mFamilies g := by
  cases hf : mapFind w.mFamilies g1 with
  | none =>
    by_cases hg : g = g1
    · subst hg; simp [Wallet.lock, hf]
    · simp [Wallet.lock, hf, hg]
  | some fam => simp [Wallet.lock, hf, mapFind_mapSet]

/-- The family map after `lock()`, family by family. -/
theorem lockAll_find (w : Wallet) (g : NewcoinAddress) :
    mapFind w.lockAll.mFamilies g = (mapFind w.mFamilies g).map LocalAccountFamily.lock := by
  simp [Wallet.lockAll, mapFind_map]

/-- An operation of the allocate/look-up/lock group other than `getNewLocalAccount(g)` runs
to completion and leaves family `g` registered with the same counter. -/
theorem step_keeps_counter (env : Env) (s : State) (g : NewcoinAddress)
    (fam : LocalAccountFamily) (op : Op) (hop : op.allocOrLookup = true)
    (hne : op ≠ Op.getNewLocalAccount g) (hf : mapFind s.1.mFamilies g = some fam) :
    ∃ s1 fam1, op.step env s = some s1 ∧ mapFind s1.1.mFamilies g = some fam1 ∧
      fam1.getSeq = fam.getSeq := by
  cases op with
  | getNewLocalAccount g1 =>
    have hg : g ≠ g1 := fun h => hne (by rw [h])
    exact ⟨_, fam, rfl, by simp [getNewLocalAccount_find, hg, hf], rfl⟩
  | getLocalAccount g1 seq =>
    by_cases hg : g = g1
    · subst hg
      refine ⟨_, (fam.getAccount env seq true).2, rfl, by simp [getLocalAccount_find, hf], ?_⟩
      simp [LocalAccountFamily.getSeq, (getAccount_fields env fam seq true).2.1]
    · exact ⟨_, fam, rfl, by simp [getLocalAccount_find, hg, hf], rfl⟩
  | getLocalAccountByID a => exact ⟨_, fam, rfl, hf, rfl⟩
  | peekKey g1 seq =>
    by_cases hg : g = g1
    · subst hg
      refine ⟨_, (fam.getAccount env seq false).2, rfl, by simp [peekKey_find, hf], ?_⟩
      simp [LocalAccountFamily.getSeq, (getAccount_fields env fam seq false).2.1]
    · exact ⟨_, fam, rfl, by simp [peekKey_find, hg, hf], rfl⟩
  | lock g1 =>
    by_cases hg : g = g1
    · subst hg
      refine ⟨_, fam.lock, rfl, by simp [lock_find, hf], ?_⟩
      simp [LocalAccountFamily.getSeq, (lock_fields fam).2.2.1]
    · exact ⟨_, fam, rfl, by simp [lock_find, hg, hf], rfl⟩
  | lockAll =>
    refine ⟨_, fam.lock, rfl, by simp [Op.step, lockAll_find, hf], ?_⟩
    simp [LocalAccountFamily.getSeq, (lock_fields fam).2.2.1]
  | addFamilySeed seed lk => simp [Op.allocOrLookup] at hop
  | addFamily g1 => simp [Op.allocOrLookup] at hop
  | findFamilyPK g1 => simp [Op.allocOrLookup] at hop
  | parseAccount sp => simp [Op.allocOrLookup] at hop
  | delFamily g1 => simp [Op.allocOrLookup] at hop
  | load => simp [Op.allocOrLookup] at hop

/-- Successive allocations on a consistent registry: the accounts returned and the final
counter. -/
theorem allocations_run (env : Env) (hcf : env.CollisionFree) (g : NewcoinAddress) :
    ∀ (ops : List Op) (s : State) (fam : LocalAccountFamily) (s0 : Nat),
      s.1.WF env → (∀ op ∈ ops, op.allocOrLookup = true) →
      mapFind s.1.mFamilies g = some fam → fam.getSeq = s0 →
      s0 + ops.count (Op.getNewLocalAccount g) ≤ 2 ^ 31 →
      allocations env g ops s =
        (List.range (ops.count (Op.getNewLocalAccount g))).map
          (fun j => some (accountOf env g ((s0 + j : Nat) : Int))) ∧
      ∃ s1 fam1, runOps env ops s = some s1 ∧ mapFind s1.1.mFamilies g = some fam1 ∧
        fam1.getSeq = s0 + ops.count (Op.getNewLocalAccount g) := by
  intro ops
  induction ops with
  | nil =>
    intro s fam s0 _ _ hf hn _
    exact ⟨rfl, s, fam, rfl, hf, by simpa using hn⟩
  | cons op ops ih =>
    intro s fam s0 hw hops hf hn hb
    have hops1 : ∀ o ∈ ops, o.allocOrLookup = true :=
      fun o ho => hops o (List.mem_cons_of_mem _ ho)
    by_cases hop : op = Op.getNewLocalAccount g
    · subst hop
      have hcount : (Op.getNewLocalAccount g :: ops).count (Op.getNewLocalAccount g)
          = ops.count (Op.getNewLocalAccount g) + 1 := by simp
      rw [hcount] at hb ⊢
      obtain ⟨r1, r2, _, _⟩ := getNewLocalAccount_spec hw hcf hf
      have hi : toInt32 fam.getSeq = (s0 : Int) := by
        rw [hn]; exact toInt32_of_lt (by omega)
      rw [hi] at r1 r2
      have hstep : (Op.getNewLocalAccount g).step env s
          = some ((s.1.getNewLocalAccount env g).2, s.2) := rfl
      have hw1 : (s.1.getNewLocalAccount env g).2.WF env := WF_getNewLocalAccount hw g
      have hseq1 : ((fam.getAccount env (s0 : Int) true).2.setSeq (fam.getSeq + 1)).getSeq
          = s0 + 1 := by
        rw [getSeq_setSeq, hn]
        exact Nat.mod_eq_of_lt (by omega)
      obtain ⟨ha, s1, fam1, hrun, hf1, hs1⟩ :=
        ih ((s.1.getNewLocalAccount env g).2, s.2) _ (s0 + 1) hw1 hops1 r2 hseq1 (by omega)
      refine ⟨?_, s1, fam1, ?_, hf1, by omega⟩
      · simp only [allocations, if_true, hstep, ha, r1, List.range_succ_eq_map, List.map_cons,
          List.map_map, List.singleton_append]
        congr 1
        apply List.map_congr_left
        intro j _
        simp only [Function.comp, Nat.succ_eq_add_one]
        congr 3
        omega
      · simp only [runOps, hstep, hrun]
    · have hcount : (op :: ops).count (Op.getNewLocalAccount g)
          = ops.count (Op.getNewLocalAccount g) := by
        rw [List.count_cons]
        simp [hop]
      rw [hcount] at hb ⊢
      obtain ⟨s1, fam1, hstep, hf1, hs1⟩ :=
        step_keeps_counter env s g fam op (hops op (List.mem_cons_self _ _)) hop hf
      have hw1 : s1.1.WF env := WF_step op hw hstep
      obtain ⟨ha, s2, fam2, hrun, hf2, hs2⟩ :=
        ih s1 fam1 s0 hw1 hops1 hf1 (hs1.trans hn) hb
      refine ⟨?_, s2, fam2, ?_, hf2, hs2⟩
      · simp only [allocations, hop, if_false, hstep, ha, List.nil_append]
      · simp only [runOps, hstep, hrun]

/-- C5, as stated, fails at the end of the counter range: on the reachable registry whose
family 7 has nextSeq 4294967295, two successive calls of `getNewLocalAccount(7)` return the
indices -1 and 0 (not 4294967295 and 4294967296) and leave nextSeq 1 (not 4294967297). -/
theorem C5_counterexample_wraparound :
    Reachable sampleEnv (lastSeqWallet, lastSeqDB) ∧
    (mapFind lastSeqWallet.mFamilies 7).map LocalAccountFamily.getSeq = some 4294967295 ∧
    (allocations sampleEnv 7 [Op.getNewLocalAccount 7, Op.getNewLocalAccount 7]
        (lastSeqWallet, lastSeqDB)).map (fun r => r.map LocalAccount.mAccountFSeq)
      = [some (-1), some 0] ∧
    (allocations sampleEnv 7 [Op.getNewLocalAccount 7, Op.getNewLocalAccount 7]
        (lastSeqWallet, lastSeqDB)).map (fun r => r.map LocalAccount.mAccountFSeq)
      ≠ [some 4294967295, some 4294967296] ∧
    (runOps sampleEnv [Op.getNewLocalAccount 7, Op.getNewLocalAccount 7]
        (lastSeqWallet, lastSeqDB)).map
        (fun s1 => (mapFind s1.1.mFamilies 7).map LocalAccountFamily.getSeq) = some (some 1) ∧
    (runOps sampleEnv [Op.getNewLocalAccount 7, Op.getNewLocalAccount 7]
        (lastSeqWallet, lastSeqDB)).map
        (fun s1 => (mapFind s1.1.mFamilies 7).map LocalAccountFamily.getSeq)
      ≠ some (some (4294967295 + 2)) := by
  refine ⟨reachable_lastSeqWallet, by decide, by decide, by decide, by decide, by decide⟩

/-- C5 (amended): with collision-free address derivation, on every reachable registry in
which family `g` is registered with nextSeq `s0`, for every sequence of operations made of
`getNewLocalAccount` (on any family), `getLocalAccount`, `peekKey` and `lock`, of which `k`
are `getNewLocalAccount(g)`, provided `s0 + k <= 2^31`: the whole sequence runs, the calls
`getNewLocalAccount(g)` return, in call order, accounts of family `g` with the indices
`s0, s0+1, ..., s0+k-1`, and afterwards nextSeq of `g` is `s0 + k`. -/
theorem C5_allocations_contiguous (env : Env) (hcf : env.CollisionFree) (s : State)
    (hr : Reachable env s) (g : NewcoinAddress) (fam : LocalAccountFamily) (s0 : Nat)
    (ops : List Op) (hops : ∀ op ∈ ops, op.allocOrLookup = true)
    (hf : mapFind s.1.mFamilies g = some fam) (hn : fam.getSeq = s0)
    (hb : s0 + ops.count (Op.getNewLocalAccount g) ≤ 2 ^ 31) :
    (allocations env g ops s).map (fun r => r.map LocalAccount.mAccountFSeq) =
      (List.range (ops.count (Op.getNewLocalAccount g))).map
        (fun j => some ((s0 + j : Nat) : Int)) ∧
    (allocations env g ops s).map (fun r => r.map LocalAccount.mFamily) =
      List.replicate (ops.count (Op.getNewLocalAccount g)) (some g) ∧
    ∃ s1 fam1, runOps env ops s = some s1 ∧ mapFind s1.1.mFamilies g = some fam1 ∧
      fam1.getSeq = s0 + ops.count (Op.getNewLocalAccount g) := by
  obtain ⟨ha, hrest⟩ := allocations_run env hcf g ops s fam s0 hr.wf hops hf hn hb
  refine ⟨?_, ?_, hrest⟩
  · rw [ha, List.map_map]
    apply List.map_congr_left
    intro j _
    rfl
  · rw [ha, List.map_map]
    apply List.ext_getElem
    · simp
    · intro i h1 h2
      simp [accountOf_mFamily]

/-- C5 (amended) at the fresh family 7: two allocations, with a preview, a lookup and a lock
in between, yield the indices 0 then 1. -/
theorem C5_allocations_contiguous_witness :
    sampleEnv.CollisionFree ∧ Reachable sampleEnv (oneFamily, oneFamilyDB) ∧
    (∀ op ∈ sampleOps, op.allocOrLookup = true) ∧
    mapFind oneFamily.mFamilies 7 = some (LocalAccountFamily.new 7) ∧
    (LocalAccountFamily.new 7).getSeq = 0 ∧
    0 + sampleOps.count (Op.getNewLocalAccount 7) ≤ 2 ^ 31 ∧
    ((allocations sampleEnv 7 sampleOps (oneFamily, oneFamilyDB)).map
        (fun r => r.map LocalAccount.mAccountFSeq) =
      (List.range (sampleOps.count (Op.getNewLocalAccount 7))).map
        (fun j => some ((0 + j : Nat) : Int)) ∧
    (allocations sampleEnv 7 sampleOps (oneFamily, oneFamilyDB)).map
        (fun r => r.map LocalAccount.mFamily) =
      List.replicate (sampleOps.count (Op.getNewLocalAccount 7)) (some 7) ∧
    ∃ s1 fam1, runOps sampleEnv sampleOps (oneFamily, oneFamilyDB) = some s1 ∧
      mapFind s1.1.mFamilies 7 = some fam1 ∧
      fam1.getSeq = 0 + sampleOps.count (Op.getNewLocalAccount 7)) :=
  ⟨sampleEnv_collisionFree, reachable_oneFamily, by decide, by decide, by decide, by decide,
    C5_allocations_contiguous sampleEnv sampleEnv_collisionFree (oneFamily, oneFamilyDB)
      reachable_oneFamily 7 (LocalAccountFamily.new 7) 0 sampleOps (by decide) (by decide)
      (by decide) (by decide)⟩

/-! ## C6: the issued flag -/

theorem toUInt32_toInt32 {n : Nat} (h : n < 2 ^ 32) : toUInt32 (toInt32 n) = n := by
  simp only [toUInt32, toInt32]
  split <;> omega

theorem toUInt32_of_nonneg {j : Int} (h0 : 0 ≤ j) (h1 : j < 2 ^ 31) :
    toUInt32 j = j.toNat := by
  simp only [toUInt32]
  omega

/-- The issued flag of an account whose `int` index is not negative is
`index < nextSeq` of the family. -/
theorem isIssued_of_nonneg (a : LocalAccount) (fam : LocalAccountFamily)
    (h0 : 0 ≤ a.mAccountFSeq) (h1 : a.mAccountFSeq < 2 ^ 31) :
    a.isIssued fam = decide (a.mAccountFSeq < (fam.getSeq : Int)) := by
  simp only [LocalAccount.isIssued, toUInt32_of_nonneg h0 h1, decide_eq_decide]
  omega

/-- C6, as stated, fails for a negative index: on the reachable registry whose family 7 has
nextSeq 4294967295, the account returned by `getNewLocalAccount(7)` has index -1 while
nextSeq has wrapped to 0, so its index is below nextSeq, yet it reports
`isIssued() == false`, and so does the account that `getLocalAccount(7, -1)` returns
afterwards; and on the reachable registry whose family 7 has nextSeq 1, the account that
`getLocalAccount(7, -1)` returns has its index below nextSeq and reports
`isIssued() == false`. -/
theorem C6_counterexample_last_counter :
    Reachable sampleEnv (lastSeqWallet, lastSeqDB) ∧
    (mapFind lastSeqWallet.mFamilies 7).map LocalAccountFamily.getSeq = some 4294967295 ∧
    (lastSeqWallet.getNewLocalAccount sampleEnv 7).1.map LocalAccount.mAccountFSeq
      = some (-1) ∧
    (lastSeqWallet.getNewLocalAccount sampleEnv 7).1.bind (fun a =>
      ((lastSeqWallet.getNewLocalAccount sampleEnv 7).2.familyOf a).map (fun fam1 =>
        a.isIssued fam1)) = some false ∧
    (((lastSeqWallet.getNewLocalAccount sampleEnv 7).2.getLocalAccount sampleEnv 7 (-1)).1.bind
      (fun b =>
        (((lastSeqWallet.getNewLocalAccount sampleEnv 7).2.getLocalAccount sampleEnv 7 (-1)).2.familyOf
          b).map (fun fam2 => b.isIssued fam2))) = some false ∧
    (lastSeqWallet.getNewLocalAccount sampleEnv 7).1.bind (fun a =>
      ((lastSeqWallet.getNewLocalAccount sampleEnv 7).2.familyOf a).map (fun fam1 =>
        decide (a.mAccountFSeq < (fam1.getSeq : Int)))) = some true ∧
    Reachable sampleEnv (oneAccount, oneFamilyDB) ∧
    (mapFind oneAccount.mFamilies 7).map LocalAccountFamily.getSeq = some 1 ∧
    (oneAccount.getLocalAccount sampleEnv 7 (-1)).1.bind (fun b =>
      ((oneAccount.getLocalAccount sampleEnv 7 (-1)).2.familyOf b).map (fun fam2 =>
        (b.mAccountFSeq, decide (b.mAccountFSeq < (fam2.getSeq : Int)), b.isIssued fam2)))
      = some (-1, true, false) := by
  refine ⟨reachable_lastSeqWallet, by decide, by decide, by decide, by decide, by decide,
    ?_, by decide, by decide⟩
  exact Reachable.step (Op.getNewLocalAccount 7) (oneFamily, oneFamilyDB) _
    reachable_oneFamily rfl

/-- C6 (amended): the issued flag of an account whose `int` index is not negative equals
(index < nextSeq of the owning family). With collision-free address derivation, on every
reachable registry in which family `g` is registered with nextSeq `n`: for every `int`
index `j >= 0` the account that `getLocalAccount(g, j)` returns has index `j`, its family
has nextSeq `n`, and it reports `isIssued() == (j < n)`, in particular false for every
`j >= n`; and when `n + 1 < 2^32`, the account that `getNewLocalAccount(g)` returns reports
`isIssued() == true`, and so does the account that `getLocalAccount(g, k)` then returns for
the index `k` of that account. -/
theorem C6_isIssued (env : Env) (hcf : env.CollisionFree) (s : State) (hr : Reachable env s)
    (g : NewcoinAddress) (fam : LocalAccountFamily) (n : Nat)
    (hf : mapFind s.1.mFamilies g = some fam) (hn : fam.getSeq = n) :
    (∀ (a : LocalAccount) (family : LocalAccountFamily),
      0 ≤ a.mAccountFSeq → a.mAccountFSeq < 2 ^ 31 →
        a.isIssued family = decide (a.mAccountFSeq < (family.getSeq : Int))) ∧
    (∀ j : Int, 0 ≤ j → j < 2 ^ 31 →
      ∃ b fam2, (s.1.getLocalAccount env g j).1 = some b ∧
        (s.1.getLocalAccount env g j).2.familyOf b = some fam2 ∧
        b.mFamily = g ∧ b.mAccountFSeq = j ∧ fam2.getSeq = n ∧
        b.isIssued fam2 = decide (j < (n : Int))) ∧
    (∀ j : Int, (n : Int) ≤ j → j < 2 ^ 31 →
      ∃ b fam2, (s.1.getLocalAccount env g j).1 = some b ∧
        (s.1.getLocalAccount env g j).2.familyOf b = some fam2 ∧ b.isIssued fam2 = false) ∧
    (n + 1 < 2 ^ 32 →
      ∃ a fam1, (s.1.getNewLocalAccount env g).1 = some a ∧
        (s.1.getNewLocalAccount env g).2.familyOf a = some fam1 ∧ a.isIssued fam1 = true ∧
        ∃ b fam2,
          ((s.1.getNewLocalAccount env g).2.getLocalAccount env g a.mAccountFSeq).1 = some b ∧
          ((s.1.getNewLocalAccount env g).2.getLocalAccount env g a.mAccountFSeq).2.familyOf b
            = some fam2 ∧
          b.isIssued fam2 = true) := by
  have hw := hr.wf
  have hlook : ∀ j : Int, 0 ≤ j → j < 2 ^ 31 →
      ∃ b fam2, (s.1.getLocalAccount env g j).1 = some b ∧
        (s.1.getLocalAccount env g j).2.familyOf b = some fam2 ∧
        b.mFamily = g ∧ b.mAccountFSeq = j ∧ fam2.getSeq = n ∧
        b.isIssued fam2 = decide (j < (n : Int)) := by
    intro j hj0 hj1
    obtain ⟨q1, q2, _, _⟩ := getLocalAccount_spec hw hcf hf j
    have hseq : (fam.getAccount env j true).2.getSeq = n := by
      rw [← hn]
      simp only [LocalAccountFamily.getSeq]
      rw [(getAccount_fields env _ _ true).2.1]
    refine ⟨_, _, q1, q2, rfl, rfl, hseq, ?_⟩
    rw [isIssued_of_nonneg _ _ hj0 hj1, hseq]
    rfl
  refine ⟨fun a family h0 h1 => isIssued_of_nonneg a family h0 h1, hlook, ?_, ?_⟩
  · intro j hj0 hj1
    obtain ⟨b, fam2, q1, q2, _, _, _, hflag⟩ := hlook j (by omega) hj1
    refine ⟨b, fam2, q1, q2, ?_⟩
    rw [hflag]
    simp only [decide_eq_false_iff_not, not_lt]
    exact hj0
  · intro hb
    obtain ⟨r1, r2, _, _⟩ := getNewLocalAccount_spec hw hcf hf
    have hw1 : (s.1.getNewLocalAccount env g).2.WF env := WF_getNewLocalAccount hw g
    have hseq1 : ((fam.getAccount env (toInt32 fam.getSeq) true).2.setSeq (fam.getSeq + 1)).getSeq
        = n + 1 := by
      rw [getSeq_setSeq, hn]
      exact Nat.mod_eq_of_lt hb
    have hidx : toUInt32 (toInt32 fam.getSeq) = n := by
      rw [hn]; exact toUInt32_toInt32 (by omega)
    obtain ⟨q1, q2, _, _⟩ := getLocalAccount_spec hw1 hcf r2 (toInt32 fam.getSeq)
    refine ⟨_, _, r1, r2, ?_, _, _, q1, q2, ?_⟩
    · simp only [LocalAccount.isIssued, accountOf_mAccountFSeq, hseq1, hidx]
      simp
    · have hseq2 : (((fam.getAccount env (toInt32 fam.getSeq) true).2.setSeq
          (fam.getSeq + 1)).getAccount env (toInt32 fam.getSeq) true).2.getSeq = n + 1 := by
        rw [← hseq1]
        simp only [LocalAccountFamily.getSeq]
        rw [(getAccount_fields env _ _ true).2.1]
      simp only [LocalAccount.isIssued, accountOf_mAccountFSeq, hseq2, hidx]
      simp

/-- C6 (amended) at the reachable registry whose family 7 has one allocated account
(nextSeq 1): the account of index 0 is issued, the accounts of indices 1 and above are not,
and the next allocation returns an issued account. -/
theorem C6_isIssued_witness :
    sampleEnv.CollisionFree ∧ Reachable sampleEnv (oneAccount, oneFamilyDB) ∧
    (mapFind oneAccount.mFamilies 7).map LocalAccountFamily.getSeq = some 1 ∧
    (∀ j : Int, 0 ≤ j → j < 2 ^ 31 →
      ∃ b fam2, (oneAccount.getLocalAccount sampleEnv 7 j).1 = some b ∧
        (oneAccount.getLocalAccount sampleEnv 7 j).2.familyOf b = some fam2 ∧
        b.mFamily = 7 ∧ b.mAccountFSeq = j ∧ fam2.getSeq = 1 ∧
        b.isIssued fam2 = decide (j < ((1 : Nat) : Int))) ∧
    (∃ a fam1, (oneAccount.getNewLocalAccount sampleEnv 7).1 = some a ∧
      (oneAccount.getNewLocalAccount sampleEnv 7).2.familyOf a = some fam1 ∧
      a.isIssued fam1 = true ∧
      ∃ b fam2,
        ((oneAccount.getNewLocalAccount sampleEnv 7).2.getLocalAccount sampleEnv 7
          a.mAccountFSeq).1 = some b ∧
        ((oneAccount.getNewLocalAccount sampleEnv 7).2.getLocalAccount sampleEnv 7
          a.mAccountFSeq).2.familyOf b = some fam2 ∧
        b.isIssued fam2 = true) :=
  have hreach : Reachable sampleEnv (oneAccount, oneFamilyDB) :=
    Reachable.step (Op.getNewLocalAccount 7) (oneFamily, oneFamilyDB) _ reachable_oneFamily rfl
  have h := C6_isIssued sampleEnv sampleEnv_collisionFree (oneAccount, oneFamilyDB) hreach 7
    { mAccounts := [(0, accountOf sampleEnv 7 0)], mFamily := 7, mLastSeq := 1, mComment := "",
      mRootPrivateKey := none } 1 (by decide) (by decide)
  ⟨sampleEnv_collisionFree, hreach, by decide, h.2.1, h.2.2.2 (by decide)⟩

/-- The issued flag at work on that registry: index 0 is issued, index 1 is not. -/
theorem isIssued_examples :
    (oneAccount.getLocalAccount sampleEnv 7 0).1.bind (fun b =>
      ((oneAccount.getLocalAccount sampleEnv 7 0).2.familyOf b).map (fun fam2 =>
        b.isIssued fam2)) = some true ∧
    (oneAccount.getLocalAccount sampleEnv 7 1).1.bind (fun b =>
      ((oneAccount.getLocalAccount sampleEnv 7 1).2.familyOf b).map (fun fam2 =>
        b.isIssued fam2)) = some false := by
  refine ⟨by decide, by decide⟩

/-! ## C7: the self-check after unlock -/

/-- The check loop succeeds exactly when every pass does. -/
theorem checkLoop_iff (env : Env) (fam : LocalAccountFamily) (root : Nat) (n : Nat) :
    ∀ i, fam.checkLoop env root i n = true ↔
      ∀ j, i ≤ j → j < i + n → fam.checkKey env root j = true := by
  induction n with
  | zero =>
    intro i
    simp only [LocalAccountFamily.checkLoop, true_iff]
    intro j h1 h2
    omega
  | succ n ih =>
    intro i
    simp only [LocalAccountFamily.checkLoop]
    by_cases hk : fam.checkKey env root i = true
    · simp only [hk, if_true, ih]
      constructor
      · intro h j h1 h2
        by_cases hji : j = i
        · rw [hji]; exact hk
        · exact h j (by omega) (by omega)
      · intro h j h1 h2
        exact h j (by omega) (by omega)
    · simp only [hk, if_false, Bool.false_eq_true, false_iff]
      intro h
      exact hk (h i (le_refl _) (by omega))

/-- The result of `unlock` on a locked family, in terms of the check loop. -/
theorem unlock_locked (env : Env) (fam : LocalAccountFamily) (r : Nat)
    (hl : fam.isLocked = true) :
    fam.unlock env r =
      if LocalAccountFamily.checkLoop env { fam with mRootPrivateKey := some r } r 0
          CHECK_NEW_FAMILIES
      then some { fam with mRootPrivateKey := some r } else none := by
  have hn : fam.mRootPrivateKey = none := by
    simpa [LocalAccountFamily.isLocked] using hl
  simp [LocalAccountFamily.unlock, hn]

/-- C7: `CHECK_NEW_FAMILIES` is 500, and for a locked family with generator `G` and a scalar
`r`: if `unlock(r)` completes, then for every index `i < 500` the public point of
`GeneratePrivateDeterministicKey(G, r, i)` equals that of
`GeneratePublicDeterministicKey(G, i)`; if the two differ for some `i < 500`, `unlock` aborts;
and if they agree for all `i < 500`, `unlock` completes with the root key set to `r`. -/
theorem C7_unlock_self_check (env : Env) (fam : LocalAccountFamily) (r : Nat)
    (hl : fam.isLocked = true) :
    CHECK_NEW_FAMILIES = 500 ∧
    ((fam.unlock env r).isSome = true →
      ∀ i : Nat, i < 500 →
        (env.generatePrivateDeterministicKey fam.mFamily r (i : Int)).pub
          = (env.generatePublicDeterministicKey fam.mFamily (i : Int)).pub) ∧
    ((∃ i : Nat, i < 500 ∧
        (env.generatePrivateDeterministicKey fam.mFamily r (i : Int)).pub
          ≠ (env.generatePublicDeterministicKey fam.mFamily (i : Int)).pub) →
      fam.unlock env r = none) ∧
    ((∀ i : Nat, i < 500 →
        (env.generatePrivateDeterministicKey fam.mFamily r (i : Int)).pub
          = (env.generatePublicDeterministicKey fam.mFamily (i : Int)).pub) →
      fam.unlock env r = some { fam with mRootPrivateKey := some r }) := by
  have key : LocalAccountFamily.checkLoop env { fam with mRootPrivateKey := some r } r 0
        CHECK_NEW_FAMILIES = true ↔
      ∀ i : Nat, i < 500 →
        (env.generatePrivateDeterministicKey fam.mFamily r (i : Int)).pub
          = (env.generatePublicDeterministicKey fam.mFamily (i : Int)).pub := by
    rw [checkLoop_iff]
    simp only [LocalAccountFamily.checkKey, decide_eq_true_eq, CHECK_NEW_FAMILIES]
    constructor
    · intro h i hi
      exact (h i (Nat.zero_le _) (by omega)).symm
    · intro h j _ hj
      exact (h j (by omega)).symm
  rw [unlock_locked env fam r hl]
  refine ⟨rfl, ?_, ?_, ?_⟩
  · intro h
    by_cases hc : LocalAccountFamily.checkLoop env { fam with mRootPrivateKey := some r } r 0
        CHECK_NEW_FAMILIES = true
    · exact key.mp hc
    · simp [hc] at h
  · rintro ⟨i, hi, hne⟩
    have hc : ¬ LocalAccountFamily.checkLoop env { fam with mRootPrivateKey := some r } r 0
        CHECK_NEW_FAMILIES = true := fun hc => hne (key.mp hc i hi)
    simp [hc]
  · intro h
    simp [key.mpr h]

/-- C7 at the locked family 7 with the derivation that disagrees from index 3 on. -/
theorem C7_unlock_self_check_witness :
    (LocalAccountFamily.new 7).isLocked = true ∧
    (CHECK_NEW_FAMILIES = 500 ∧
    (((LocalAccountFamily.new 7).unlock brokenEnv 11).isSome = true →
      ∀ i : Nat, i < 500 →
        (brokenEnv.generatePrivateDeterministicKey (LocalAccountFamily.new 7).mFamily 11
            (i : Int)).pub
          = (brokenEnv.generatePublicDeterministicKey (LocalAccountFamily.new 7).mFamily
            (i : Int)).pub) ∧
    ((∃ i : Nat, i < 500 ∧
        (brokenEnv.generatePrivateDeterministicKey (LocalAccountFamily.new 7).mFamily 11
            (i : Int)).pub
          ≠ (brokenEnv.generatePublicDeterministicKey (LocalAccountFamily.new 7).mFamily
            (i : Int)).pub) →
      (LocalAccountFamily.new 7).unlock brokenEnv 11 = none) ∧
    ((∀ i : Nat, i < 500 →
        (brokenEnv.generatePrivateDeterministicKey (LocalAccountFamily.new 7).mFamily 11
            (i : Int)).pub
          = (brokenEnv.generatePublicDeterministicKey (LocalAccountFamily.new 7).mFamily
            (i : Int)).pub) →
      (LocalAccountFamily.new 7).unlock brokenEnv 11
        = some { LocalAccountFamily.new 7 with mRootPrivateKey := some 11 })) :=
  ⟨by decide, C7_unlock_self_check brokenEnv (LocalAccountFamily.new 7) 11 (by decide)⟩

/-- The self-check at work: with the derivation that disagrees from index 3 on, `unlock`
aborts; with the agreeing derivation it completes and private keys become available. -/
theorem unlock_examples :
    (LocalAccountFamily.new 7).unlock brokenEnv 11 = none ∧
    (LocalAccountFamily.new 7).unlock sampleEnv 11
      = some { LocalAccountFamily.new 7 with mRootPrivateKey := some 11 } := by
  constructor
  · decide
  · exact sampleEnv_unlock _ _ rfl

/-! ## C8: private keys and locking -/

/-- C8: `getPrivateKey(i)` is empty exactly when the family is locked and is otherwise the
key derived from (generator, root scalar, i); `LocalAccount::getPrivateKey` delegates to it;
after `lock()` on the family, `Wallet::lock(G)` or `Wallet::lock()` the key is absent for
every index of the locked families; and locking twice is locking once. -/
theorem C8_private_key_and_lock (env : Env) :
    (∀ (fam : LocalAccountFamily) (i : Int),
      fam.getPrivateKey env i = none ↔ fam.isLocked = true) ∧
    (∀ (fam : LocalAccountFamily) (i : Int),
      fam.getPrivateKey env i =
        fam.mRootPrivateKey.map (fun r => env.generatePrivateDeterministicKey fam.mFamily r i)) ∧
    (∀ (a : LocalAccount) (fam : LocalAccountFamily),
      a.getPrivateKey env fam = fam.getPrivateKey env a.mAccountFSeq) ∧
    (∀ (fam : LocalAccountFamily) (i : Int),
      fam.lock.isLocked = true ∧ fam.lock.getPrivateKey env i = none) ∧
    (∀ (w : Wallet) (g : NewcoinAddress) (i : Int),
      (mapFind (w.lock g).2.mFamilies g).map (fun fam => fam.getPrivateKey env i)
        = (mapFind w.mFamilies g).map (fun _ => none)) ∧
    (∀ (w : Wallet) (g : NewcoinAddress) (i : Int),
      (mapFind w.lockAll.mFamilies g).map (fun fam => fam.getPrivateKey env i)
        = (mapFind w.mFamilies g).map (fun _ => none)) ∧
    (∀ fam : LocalAccountFamily, fam.lock.lock = fam.lock) ∧
    (∀ (w : Wallet) (g : NewcoinAddress), ((w.lock g).2.lock g).2 = (w.lock g).2) ∧
    (∀ w : Wallet, w.lockAll.lockAll = w.lockAll) := by
  have hlock : ∀ (fam : LocalAccountFamily) (i : Int), fam.lock.getPrivateKey env i = none := by
    intro fam i
    simp [LocalAccountFamily.getPrivateKey, (lock_fields fam).2.2.2.2]
  have hidem : ∀ fam : LocalAccountFamily, fam.lock.lock = fam.lock := by
    intro fam
    unfold LocalAccountFamily.lock
    cases h : fam.mRootPrivateKey with
    | none => simp [h]
    | some r => simp
  refine ⟨?_, ?_, ?_, ?_, ?_, ?_, hidem, ?_, ?_⟩
  · intro fam i
    unfold LocalAccountFamily.getPrivateKey LocalAccountFamily.isLocked
    cases fam.mRootPrivateKey <;> simp
  · intro fam i
    unfold LocalAccountFamily.getPrivateKey
    cases fam.mRootPrivateKey <;> simp
  · intro a fam
    rfl
  · intro fam i
    exact ⟨by simp [LocalAccountFamily.isLocked, (lock_fields fam).2.2.2.2], hlock fam i⟩
  · intro w g i
    rw [lock_find]
    simp only [if_true, Option.map_map]
    cases mapFind w.mFamilies g with
    | none => rfl
    | some fam => simp [hlock]
  · intro w g i
    rw [lockAll_find]
    simp only [Option.map_map]
    cases mapFind w.mFamilies g with
    | none => rfl
    | some fam => simp [hlock]
  · intro w g
    cases hf : mapFind w.mFamilies g with
    | none => simp [Wallet.lock, hf]
    | some fam =>
      have h1 : (w.lock g).2 = { w with mFamilies := mapSet w.mFamilies g fam.lock } := by
        simp [Wallet.lock, hf]
      have h3 : ∀ (m : List (NewcoinAddress × LocalAccountFamily)) (v : LocalAccountFamily),
          mapSet (mapSet m g v) g v = mapSet m g v := by
        intro m v
        induction m with
        | nil => rfl
        | cons p m ih =>
          obtain ⟨k, v0⟩ := p
          by_cases hk : k = g
          · simp [mapSet, hk, ih]
          · simp [mapSet, hk, ih]
      rw [h1]
      simp [Wallet.lock, mapFind_mapSet, hf, hidem, h3]
  · intro w
    simp [Wallet.lockAll, List.map_map, Function.comp, hidem]

/-! ## C9: a family made from a bare generator stays locked -/

theorem RootKept.refl (g : NewcoinAddress) (w : Wallet) : RootKept g w w :=
  fun fam1 h => Or.inr ⟨fam1, h, rfl⟩

theorem RootKept.trans {g : NewcoinAddress} {w w1 w2 : Wallet} (h1 : RootKept g w w1)
    (h2 : RootKept g w1 w2) : RootKept g w w2 := by
  intro fam2 hf2
  rcases h2 fam2 hf2 with h | ⟨fam1, hf1, e1⟩
  · exact Or.inl h
  · rcases h1 fam1 hf1 with h | ⟨fam, hf, e⟩
    · exact Or.inl (e1.trans h)
    · exact Or.inr ⟨fam, hf, e1.trans e⟩

/-- A family map that differs from the old one only at `g1`, where the family keeps or
drops its root key. -/
theorem RootKept.of_edit {g g1 : NewcoinAddress} {w w1 : Wallet}
    (edit : LocalAccountFamily → LocalAccountFamily)
    (he : ∀ fam, (edit fam).mRootPrivateKey = none ∨
      (edit fam).mRootPrivateKey = fam.mRootPrivateKey)
    (hfind : mapFind w1.mFamilies g =
      if g = g1 then (mapFind w.mFamilies g1).map edit else mapFind w.mFamilies g) :
    RootKept g w w1 := by
  intro fam1 hf1
  rw [hfind] at hf1
  by_cases hg : g = g1
  · subst hg
    simp only [if_true] at hf1
    cases hf : mapFind w.mFamilies g with
    | none => simp [hf] at hf1
    | some fam =>
      simp only [hf, Option.map_some', Option.some.injEq] at hf1
      subst hf1
      rcases he fam with h | h
      · exact Or.inl h
      · exact Or.inr ⟨fam, rfl, h⟩
  · simp only [hg, if_false] at hf1
    exact Or.inr ⟨fam1, hf1, rfl⟩

theorem RootKept.of_insert (g g1 : NewcoinAddress) (w : Wallet) :
    RootKept g w { w with mFamilies := mapInsert w.mFamilies g1 (LocalAccountFamily.new g1) } := by
  intro fam1 hf1
  simp only [mapFind_mapInsert] at hf1
  by_cases hg : g = g1
  · subst hg
    simp only [if_true, Option.some.injEq] at hf1
    cases hf : mapFind w.mFamilies g with
    | none =>
      rw [hf] at hf1
      simp only [Option.getD_none] at hf1
      subst hf1
      exact Or.inl rfl
    | some fam =>
      rw [hf] at hf1
      simp only [Option.getD_some] at hf1
      subst hf1
      exact Or.inr ⟨fam, rfl, rfl⟩
  · simp only [hg, if_false] at hf1
    exact Or.inr ⟨fam1, hf1, rfl⟩

theorem RootKept.doPublic (g : NewcoinAddress) (w : Wallet) (db : WalletDB)
    (g1 : NewcoinAddress) (c d : Bool) : RootKept g w (w.doPublic db g1 c d).2.1 := by
  rcases doPublic_wallet w db g1 c d with e | ⟨_, e⟩
  · rw [e]; exact RootKept.refl g w
  · rw [e]; exact RootKept.of_insert g g1 w

theorem readFamily_fields {db : WalletDB} {g : NewcoinAddress} {fam : LocalAccountFamily}
    (h : LocalAccountFamily.readFamily db g = some fam) :
    fam.mFamily = g ∧ fam.mRootPrivateKey = none ∧ fam.mAccounts = [] := by
  unfold LocalAccountFamily.readFamily at h
  split at h
  · cases h
  · cases h; exact ⟨rfl, rfl, rfl⟩

/-- The family pointer returned by `doPublic`: the registered family, or a locked one. -/
theorem doPublic_result {w : Wallet} {db : WalletDB} {g : NewcoinAddress} {c d : Bool}
    {f : LocalAccountFamily} (h : (w.doPublic db g c d).1 = some f) :
    mapFind w.mFamilies g = some f ∨
      (mapFind w.mFamilies g = none ∧ f.mFamily = g ∧ f.mRootPrivateKey = none) := by
  unfold Wallet.doPublic at h
  cases hf : mapFind w.mFamilies g with
  | some fam =>
    simp only [hf] at h
    left; rw [← h]
  | none =>
    right
    refine ⟨rfl, ?_⟩
    simp only [hf] at h
    cases c with
    | false => simp at h
    | true =>
      cases d with
      | false =>
        simp at h
        subst h
        exact ⟨rfl, rfl⟩
      | true =>
        cases hrf : LocalAccountFamily.readFamily db g with
        | none =>
          simp [hrf] at h
          subst h
          exact ⟨rfl, rfl⟩
        | some f0 =>
          simp [hrf] at h
          subst h
          exact ⟨(readFamily_fields hrf).1, (readFamily_fields hrf).2.1⟩

theorem RootKept.loadRow (g : NewcoinAddress) (w : Wallet) (db : WalletDB) (row : FamilyRow) :
    RootKept g w (w.loadRow db row) := by
  unfold Wallet.loadRow
  have h1 := RootKept.doPublic g w db row.FamilyGenerator true false
  cases hd : w.doPublic db row.FamilyGenerator true false with
  | mk fo rest =>
    obtain ⟨w1, db1⟩ := rest
    rw [hd] at h1
    cases fo with
    | none => exact h1
    | some f =>
      have hres : (w.doPublic db row.FamilyGenerator true false).1 = some f := by rw [hd]
      simp only
      intro fam2 hf2
      simp only [mapFind_mapSet] at hf2
      by_cases hg : g = row.FamilyGenerator
      · simp only [hg, if_true] at hf2
        cases hw1 : mapFind w1.mFamilies row.FamilyGenerator with
        | none => simp [hw1] at hf2
        | some f1 =>
          simp only [hw1, Option.map_some', Option.some.injEq] at hf2
          subst hf2
          rcases doPublic_result hres with hfound | ⟨_, _, hnone⟩
          · exact Or.inr ⟨f, by rw [hg]; exact hfound, rfl⟩
          · exact Or.inl hnone
      · simp only [hg, if_false] at hf2
        exact h1 fam2 hf2

theorem RootKept.load (g : NewcoinAddress) (db rows : WalletDB) :
    ∀ w : Wallet, RootKept g w (rows.foldl (Wallet.loadRow db) w) := by
  induction rows with
  | nil => intro w; exact RootKept.refl g w
  | cons row rows ih =>
    intro w
    exact RootKept.trans (RootKept.loadRow g w db row) (ih _)

theorem RootKept.doPrivate {env : Env} (g : NewcoinAddress) (w : Wallet) (db : WalletDB)
    (seed : NewcoinAddress) (c u : Bool) (r : Option LocalAccountFamily × Wallet × WalletDB)
    (hr : w.doPrivate env db seed c u = some r)
    (hu : u = false ∨ env.seedGenerator seed ≠ g) : RootKept g w r.2.1 := by
  unfold Wallet.doPrivate at hr
  generalize hgen : env.seedGenerator seed = g1 at hr hu
  -- an update of the family map at the seed's generator is invisible at `g`
  have hset : ∀ (w0 : Wallet) (fam1 : LocalAccountFamily), u = true →
      RootKept g w0 { w0 with mFamilies := mapSet w0.mFamilies g1 fam1 } := by
    intro w0 fam1 hut
    have hne : g ≠ g1 := by
      rcases hu with h | h
      · rw [h] at hut; cases hut
      · exact fun e => h e.symm
    intro fam2 hf2
    simp only [mapFind_mapSet, hne, if_false] at hf2
    exact Or.inr ⟨fam2, hf2, rfl⟩
  cases hf : mapFind w.mFamilies g1 with
  | some fam =>
    simp only [hf] at hr
    split at hr
    · rename_i hcond
      have hut : u = true := by
        cases u with
        | false => simp at hcond
        | true => rfl
      split at hr
      · cases hr
      · cases hr
        exact hset w _ hut
    · cases hr; exact RootKept.refl g w
  | none =>
    simp only [hf] at hr
    cases hd : LocalAccountFamily.readFamily db g1 with
    | some fam =>
      simp only [hd] at hr
      split at hr
      · split at hr
        · cases hr
        · cases hr; exact RootKept.refl g w
      · cases hr; exact RootKept.refl g w
    | none =>
      simp only [hd] at hr
      cases c with
      | false =>
        simp only [Bool.not_false, if_true] at hr
        cases hr; exact RootKept.refl g w
      | true =>
        simp only [Bool.not_true, Bool.false_eq_true, if_false] at hr
        split at hr
        · rename_i hcond
          have hut : u = true := by
            cases u with
            | false => simp at hcond
            | true => rfl
          split at hr
          · cases hr
          · cases hr
            exact RootKept.trans (RootKept.of_insert g g1 w) (hset _ _ hut)
        · cases hr; exact RootKept.of_insert g g1 w

/-- Every operation other than an unlocking `addFamily(seed)` of family `g` leaves family `g`
with its old root key or with none. -/
theorem step_rootKept {env : Env} {s s1 : State} (g : NewcoinAddress) (op : Op)
    (hop : op.unlocks env g = false) (hs : op.step env s = some s1) :
    RootKept g s.1 s1.1 := by
  cases op with
  | addFamilySeed seed lk =>
    simp only [Op.step, Wallet.addFamilySeed] at hs
    cases hd : s.1.doPrivate env s.2 seed true (!lk) with
    | none => simp [hd] at hs
    | some r =>
      simp only [hd, Option.some.injEq] at hs
      subst hs
      refine RootKept.doPrivate g _ _ _ _ _ r hd ?_
      cases lk with
      | true => left; rfl
      | false =>
        right
        simpa [Op.unlocks] using hop
  | addFamily g1 =>
    simp only [Op.step, Wallet.addFamily, Option.some.injEq] at hs
    subst hs
    exact RootKept.doPublic g _ _ _ _ _
  | findFamilyPK g1 =>
    simp only [Op.step, Wallet.findFamilyPK, Option.some.injEq] at hs
    subst hs
    exact RootKept.doPublic g _ _ _ _ _
  | getNewLocalAccount g1 =>
    simp only [Op.step, Option.some.injEq] at hs
    subst hs
    exact RootKept.of_edit
      (fun fam => (fam.getAccount env (toInt32 fam.getSeq) true).2.setSeq (fam.getSeq + 1))
      (fun fam => Or.inr (getAccount_fields env fam (toInt32 fam.getSeq) true).2.2.1)
      (getNewLocalAccount_find env s.1 g g1)
  | getLocalAccount g1 seq =>
    simp only [Op.step, Option.some.injEq] at hs
    subst hs
    exact RootKept.of_edit _ (fun fam => Or.inr (getAccount_fields env fam seq true).2.2.1)
      (getLocalAccount_find env s.1 g g1 seq)
  | getLocalAccountByID a =>
    simp only [Op.step, Option.some.injEq] at hs
    subst hs
    exact RootKept.refl g _
  | parseAccount sp =>
    simp only [Op.step] at hs
    cases hp : s.1.parseAccount env s.2 sp with
    | error e =>
      simp only [hp, Option.some.injEq] at hs
      subst hs
      exact RootKept.refl g _
    | ok r =>
      simp only [hp, Option.some.injEq] at hs
      subst hs
      rcases (parseAccount_state hp).2 with e | ⟨g1, seq, e⟩
      · rw [e]; exact RootKept.refl g _
      · rw [e]
        exact RootKept.of_edit _ (fun fam => Or.inr (getAccount_fields env fam seq true).2.2.1)
          (getLocalAccount_find env s.1 g g1 seq)
  | peekKey g1 seq =>
    simp only [Op.step, Option.some.injEq] at hs
    subst hs
    exact RootKept.of_edit _ (fun fam => Or.inr (getAccount_fields env fam seq false).2.2.1)
      (peekKey_find env s.1 g g1 seq)
  | delFamily g1 =>
    simp only [Op.step, Option.some.injEq] at hs
    subst hs
    intro fam1 hf1
    cases hf : mapFind s.1.mFamilies g1 with
    | none =>
      simp only [Wallet.delFamily, hf] at hf1
      exact Or.inr ⟨fam1, hf1, rfl⟩
    | some fam =>
      simp only [Wallet.delFamily, hf, mapFind_mapErase] at hf1
      by_cases hg : g = g1
      · simp [hg] at hf1
      · simp only [hg, if_false] at hf1
        exact Or.inr ⟨fam1, hf1, rfl⟩
  | lock g1 =>
    simp only [Op.step, Option.some.injEq] at hs
    subst hs
    exact RootKept.of_edit _ (fun fam => Or.inl (lock_fields fam).2.2.2.2) (lock_find s.1 g g1)
  | lockAll =>
    simp only [Op.step, Option.some.injEq] at hs
    subst hs
    intro fam1 hf1
    simp only [lockAll_find] at hf1
    cases hf : mapFind s.1.mFamilies g with
    | none => simp [hf] at hf1
    | some fam =>
      simp only [hf, Option.map_some', Option.some.injEq] at hf1
      subst hf1
      exact Or.inl (lock_fields fam).2.2.2.2
  | load =>
    simp only [Op.step, Option.some.injEq] at hs
    subst hs
    exact RootKept.load g _ _ _

/-- Along operations none of which unlocks family `g`, a family `g` without root key stays
without root key. -/
theorem runOps_keeps_locked {env : Env} (g : NewcoinAddress) :
    ∀ (ops : List Op) (s s1 : State), (∀ op ∈ ops, op.unlocks env g = false) →
      runOps env ops s = some s1 →
      (∀ fam, mapFind s.1.mFamilies g = some fam → fam.mRootPrivateKey = none) →
      ∀ fam, mapFind s1.1.mFamilies g = some fam → fam.mRootPrivateKey = none := by
  intro ops
  induction ops with
  | nil =>
    intro s s1 _ hrun hl
    simp only [runOps, Option.some.injEq] at hrun
    subst hrun
    exact hl
  | cons op ops ih =>
    intro s s1 hops hrun hl
    simp only [runOps] at hrun
    cases hstep : op.step env s with
    | none => simp [hstep] at hrun
    | some s2 =>
      simp only [hstep] at hrun
      refine ih s2 s1 (fun o ho => hops o (List.mem_cons_of_mem _ ho)) hrun ?_
      intro fam2 hf2
      rcases step_rootKept g op (hops op (List.mem_cons_self _ _)) hstep fam2 hf2 with
        h | ⟨fam, hf, e⟩
      · exact h
      · exact e.trans (hl fam hf)

/-- The operations that supply only public material never abort. -/
theorem runOps_public_total (env : Env) :
    ∀ (ops : List Op) (s : State), (∀ op ∈ ops, op.publicMaterial = true) →
      ∃ s1, runOps env ops s = some s1 := by
  intro ops
  induction ops with
  | nil => intro s _; exact ⟨s, rfl⟩
  | cons op ops ih =>
    intro s hops
    have hop := hops op (List.mem_cons_self _ _)
    have hstep : ∃ s2, op.step env s = some s2 := by
      cases op with
      | parseAccount sp =>
        simp only [Op.step]
        cases s.1.parseAccount env s.2 sp with
        | error e => exact ⟨_, rfl⟩
        | ok r => exact ⟨_, rfl⟩
      | addFamilySeed seed lk => simp [Op.publicMaterial] at hop
      | delFamily g1 => simp [Op.publicMaterial] at hop
      | load => simp [Op.publicMaterial] at hop
      | addFamily g1 => exact ⟨_, rfl⟩
      | findFamilyPK g1 => exact ⟨_, rfl⟩
      | getNewLocalAccount g1 => exact ⟨_, rfl⟩
      | getLocalAccount g1 seq => exact ⟨_, rfl⟩
      | getLocalAccountByID a => exact ⟨_, rfl⟩
      | peekKey g1 seq => exact ⟨_, rfl⟩
      | lock g1 => exact ⟨_, rfl⟩
      | lockAll => exact ⟨_, rfl⟩
    obtain ⟨s2, h2⟩ := hstep
    obtain ⟨s1, h1⟩ := ih s2 (fun o ho => hops o (List.mem_cons_of_mem _ ho))
    exact ⟨s1, by simp only [runOps, h2, h1]⟩

theorem publicMaterial_not_unlocks (env : Env) (g : NewcoinAddress) (op : Op)
    (h : op.publicMaterial = true) : op.unlocks env g = false := by
  cases op <;> first | rfl | simp [Op.publicMaterial] at h

/-- C9: for a generator `g` that is not registered, the family that `addFamily(g)` makes from
the bare generator is locked and has no private key at any index; after `addFamily(g)` and
any sequence of operations that supply only public material (which always runs to
completion) the registered family `g` is locked and has no private key at any index; and the
same holds after any sequence of operations that completes and contains no `addFamily` call
carrying a seed of `g` with unlocking requested. -/
theorem C9_bare_generator_stays_locked (env : Env) (s : State) (g : NewcoinAddress)
    (hfresh : mapFind s.1.mFamilies g = none) :
    (∃ fam, (s.1.doPublic s.2 g true true).1 = some fam ∧ fam.mFamily = g ∧
      fam.isLocked = true ∧ ∀ i, fam.getPrivateKey env i = none) ∧
    (∀ ops : List Op, (∀ op ∈ ops, op.publicMaterial = true) →
      ∃ s1, runOps env (Op.addFamily g :: ops) s = some s1 ∧
        ∀ fam, mapFind s1.1.mFamilies g = some fam →
          fam.isLocked = true ∧ ∀ i, fam.getPrivateKey env i = none) ∧
    (∀ (ops : List Op) (s1 : State), (∀ op ∈ ops, op.unlocks env g = false) →
      runOps env (Op.addFamily g :: ops) s = some s1 →
        ∀ fam, mapFind s1.1.mFamilies g = some fam →
          fam.isLocked = true ∧ ∀ i, fam.getPrivateKey env i = none) := by
  have hkey : ∀ fam : LocalAccountFamily, fam.mRootPrivateKey = none →
      fam.isLocked = true ∧ ∀ i, fam.getPrivateKey env i = none := by
    intro fam h
    exact ⟨by simp [LocalAccountFamily.isLocked, h],
      fun i => by simp [LocalAccountFamily.getPrivateKey, h]⟩
  have hgen : ∀ (ops : List Op) (s1 : State), (∀ op ∈ ops, op.unlocks env g = false) →
      runOps env (Op.addFamily g :: ops) s = some s1 →
        ∀ fam, mapFind s1.1.mFamilies g = some fam → fam.mRootPrivateKey = none := by
    intro ops s1 hops hrun
    refine runOps_keeps_locked g (Op.addFamily g :: ops) s s1 ?_ hrun ?_
    · intro op hop
      rcases List.mem_cons.mp hop with rfl | hop
      · rfl
      · exact hops op hop
    · intro fam hf
      rw [hfresh] at hf
      cases hf
  refine ⟨?_, ?_, ?_⟩
  · cases hd : (s.1.doPublic s.2 g true true).1 with
    | none =>
      exfalso
      unfold Wallet.doPublic at hd
      simp only [hfresh] at hd
      cases hrf : LocalAccountFamily.readFamily s.2 g with
      | none => simp [hrf] at hd
      | some f0 => simp [hrf] at hd
    | some fam =>
      rcases doPublic_result hd with h | ⟨_, h1, h2⟩
      · rw [hfresh] at h; cases h
      · exact ⟨fam, rfl, h1, hkey fam h2⟩
  · intro ops hops
    have hpub : ∀ op ∈ Op.addFamily g :: ops, op.publicMaterial = true := by
      intro op hop
      rcases List.mem_cons.mp hop with rfl | hop
      · rfl
      · exact hops op hop
    obtain ⟨s1, hrun⟩ := runOps_public_total env (Op.addFamily g :: ops) s hpub
    refine ⟨s1, hrun, fun fam hf => hkey fam ?_⟩
    exact hgen ops s1 (fun op hop => publicMaterial_not_unlocks env g op (hops op hop)) hrun
      fam hf
  · intro ops s1 hops hrun fam hf
    exact hkey fam (hgen ops s1 hops hrun fam hf)

/-- C9 at the empty wallet: family 7 made from the bare generator, then public-material
operations. -/
theorem C9_bare_generator_stays_locked_witness :
    mapFind Wallet.new.mFamilies 7 = none ∧
    (∀ op ∈ publicOps, op.publicMaterial = true) ∧
    ∃ s1, runOps sampleEnv (Op.addFamily 7 :: publicOps) (Wallet.new, []) = some s1 ∧
      ∀ fam, mapFind s1.1.mFamilies 7 = some fam →
        fam.isLocked = true ∧ ∀ i, fam.getPrivateKey sampleEnv i = none :=
  ⟨by decide, by decide,
    (C9_bare_generator_stays_locked sampleEnv (Wallet.new, []) 7 (by decide)).2.1 publicOps
      (by decide)⟩

/-- The family 7 made from the bare generator is registered and locked; `addFamily` with the
seed 6 of that family and unlocking requested makes its private keys available. -/
theorem unlocking_addFamily_example :
    (mapFind oneFamily.mFamilies 7).map LocalAccountFamily.isLocked = some true ∧
    sampleEnv.seedGenerator 6 = 7 ∧
    (oneFamily.addFamilySeed sampleEnv oneFamilyDB 6 false).map
      (fun r => (mapFind r.2.1.mFamilies 7).map (fun fam => fam.getPrivateKey sampleEnv 2))
      = some (some (some (sampleEnv.generatePrivateDeterministicKey 7 6 2))) := by
  refine ⟨by decide, by decide, ?_⟩
  have hf : mapFind oneFamily.mFamilies 7 = some (LocalAccountFamily.new 7) := by decide
  have hs : sampleEnv.seedGenerator 6 = 7 := by decide
  have hk : sampleEnv.getFamilyPrivateKey 6 = 6 := by decide
  simp [Wallet.addFamilySeed, Wallet.doPrivate, hs, hf, hk, sampleEnv_unlock,
    LocalAccountFamily.isLocked, LocalAccountFamily.new, mapFind_mapSet,
    LocalAccountFamily.getPrivateKey]

/-! ## C10: removal of a family -/

theorem reachable_oneAccount : Reachable sampleEnv (oneAccount, oneFamilyDB) :=
  Reachable.step (Op.getNewLocalAccount 7) (oneFamily, oneFamilyDB) _ reachable_oneFamily rfl

/-- On a consistent registry, `delFamily(g)` leaves no account of family `g` in the address
index, and no entry under an address at which the index held an account of `g`. -/
theorem delFamily_accounts {env : Env} {w : Wallet} (h : w.WF env) (g : NewcoinAddress) :
    (∀ p ∈ (w.delFamily g).mAccounts, p.2.mFamily ≠ g) ∧
    (∀ p ∈ w.mAccounts, p.2.mFamily = g → mapFind (w.delFamily g).mAccounts p.1 = none) := by
  cases hf : mapFind w.mFamilies g with
  | none =>
    have hno : ∀ p ∈ w.mAccounts, p.2.mFamily ≠ g := by
      intro p hp he
      obtain ⟨_, _, fam0, h3, _⟩ := h.accounts p hp
      rw [he, hf] at h3
      cases h3
    simp only [Wallet.delFamily, hf]
    exact ⟨hno, fun p hp he => absurd he (hno p hp)⟩
  | some fam =>
    obtain ⟨hg, hc⟩ := h.families g fam hf
    -- an account of `g` in the index sits under an address that the loop erases
    have herased : ∀ p ∈ w.mAccounts, p.2.mFamily = g →
        ∃ q ∈ fam.mAccounts, p.1 = q.2.getAddress := by
      intro p hp he
      obtain ⟨h1, h2, fam0, h3, q, hq, hq1⟩ := h.accounts p hp
      rw [he, hf] at h3
      cases h3
      refine ⟨q, hq, ?_⟩
      have hq2 : q.2 = accountOf env g q.1 := hc q hq
      rw [h1, h2, LocalAccount.getAddress, hq2, he, hq1]
    simp only [Wallet.delFamily, hf]
    constructor
    · intro p hp he
      rw [mem_foldl_mapErase] at hp
      obtain ⟨q, hq, e⟩ := herased p hp.1 he
      exact hp.2 q hq e
    · intro p hp he
      apply mapFind_none_of_not_mem
      intro p1 hp1 e1
      rw [mem_foldl_mapErase] at hp1
      obtain ⟨q, hq, e⟩ := herased p hp he
      exact hp1.2 q hq (e1.trans e)

/-- C10: on every reachable registry, after `delFamily(g)` the generator `g` is not in the
family map, so `findFamilyPK(g)` returns the invalid address and `getNewLocalAccount(g)` the
empty pointer; the address index holds no account whose family is `g`, and
`getLocalAccount(address)` finds nothing under any address at which an account of `g` was
registered; every other family is registered as before. -/
theorem C10_delFamily (env : Env) (s : State) (hr : Reachable env s) (g : NewcoinAddress) :
    mapFind (s.1.delFamily g).mFamilies g = none ∧
    ((s.1.delFamily g).findFamilyPK s.2 g).1 = NewcoinAddress.none ∧
    NewcoinAddress.isValid ((s.1.delFamily g).findFamilyPK s.2 g).1 = false ∧
    ((s.1.delFamily g).getNewLocalAccount env g).1 = none ∧
    (∀ p ∈ (s.1.delFamily g).mAccounts, p.2.mFamily ≠ g) ∧
    (∀ (a : NewcoinAddress) (acc : LocalAccount),
      (s.1.delFamily g).getLocalAccountByID a = some acc → acc.mFamily ≠ g) ∧
    (∀ (a : NewcoinAddress) (acc : LocalAccount),
      s.1.getLocalAccountByID a = some acc → acc.mFamily = g →
        (s.1.delFamily g).getLocalAccountByID a = none) ∧
    (∀ g1, g1 ≠ g → mapFind (s.1.delFamily g).mFamilies g1 = mapFind s.1.mFamilies g1) := by
  have hw := hr.wf
  obtain ⟨hacc1, hacc2⟩ := delFamily_accounts hw g
  have hgone : mapFind (s.1.delFamily g).mFamilies g = none := by
    cases hf : mapFind s.1.mFamilies g with
    | none => simp [Wallet.delFamily, hf]
    | some fam => simp [Wallet.delFamily, hf, mapFind_mapErase]
  refine ⟨hgone, ?_, ?_, ?_, hacc1, ?_, ?_, ?_⟩
  · rw [findFamilyPK_eq, hgone]; rfl
  · rw [findFamilyPK_eq, hgone]; rfl
  · simp [Wallet.getNewLocalAccount, hgone]
  · intro a acc hfind
    exact hacc1 (a, acc) (mapFind_some_mem hfind)
  · intro a acc hfind he
    exact hacc2 (a, acc) (mapFind_some_mem hfind) he
  · intro g1 hg1
    cases hf : mapFind s.1.mFamilies g with
    | none => simp [Wallet.delFamily, hf]
    | some fam => simp [Wallet.delFamily, hf, mapFind_mapErase, hg1]

/-- C10 at the registry holding family 7 with one allocated account. -/
theorem C10_delFamily_witness :
    Reachable sampleEnv (oneAccount, oneFamilyDB) ∧
    oneAccount.getLocalAccountByID (addressOf sampleEnv 7 0) = some (accountOf sampleEnv 7 0) ∧
    (mapFind (oneAccount.delFamily 7).mFamilies 7 = none ∧
    ((oneAccount.delFamily 7).findFamilyPK oneFamilyDB 7).1 = NewcoinAddress.none ∧
    NewcoinAddress.isValid ((oneAccount.delFamily 7).findFamilyPK oneFamilyDB 7).1 = false ∧
    ((oneAccount.delFamily 7).getNewLocalAccount sampleEnv 7).1 = none ∧
    (∀ p ∈ (oneAccount.delFamily 7).mAccounts, p.2.mFamily ≠ 7) ∧
    (∀ (a : NewcoinAddress) (acc : LocalAccount),
      (oneAccount.delFamily 7).getLocalAccountByID a = some acc → acc.mFamily ≠ 7) ∧
    (∀ (a : NewcoinAddress) (acc : LocalAccount),
      oneAccount.getLocalAccountByID a = some acc → acc.mFamily = 7 →
        (oneAccount.delFamily 7).getLocalAccountByID a = none) ∧
    (∀ g1, g1 ≠ 7 →
      mapFind (oneAccount.delFamily 7).mFamilies g1 = mapFind oneAccount.mFamilies g1)) :=
  ⟨reachable_oneAccount, by decide,
    C10_delFamily sampleEnv (oneAccount, oneFamilyDB) reachable_oneAccount 7⟩

/-! ## The address index stays in address order -/

theorem mapPlace_pairwise {V : Type} {m : List (NewcoinAddress × V)} {k : NewcoinAddress}
    (v : V) (hs : m.Pairwise (fun p q => p.1 < q.1)) (hk : ∀ p ∈ m, p.1 ≠ k) :
    (mapPlace m k v).Pairwise (fun p q => p.1 < q.1) := by
  induction m with
  | nil => simp [mapPlace]
  | cons q m ih =>
    obtain ⟨k1, v1⟩ := q
    rw [List.pairwise_cons] at hs
    have hne : k1 ≠ k := hk (k1, v1) (List.mem_cons_self _ _)
    by_cases hlt : k < k1
    · simp only [mapPlace, hlt, if_true]
      rw [List.pairwise_cons]
      refine ⟨?_, List.pairwise_cons.mpr hs⟩
      intro p hp
      rcases List.mem_cons.mp hp with rfl | hp
      · exact hlt
      · exact lt_trans hlt (hs.1 p hp)
    · simp only [mapPlace, hlt, if_false]
      rw [List.pairwise_cons]
      refine ⟨?_, ih hs.2 (fun p hp => hk p (List.mem_cons_of_mem _ hp))⟩
      intro p hp
      rcases mem_mapPlace.mp hp with rfl | hp
      · exact lt_of_le_of_ne (not_lt.mp hlt) hne
      · exact hs.1 p hp

theorem mapInsert_pairwise {V : Type} {m : List (NewcoinAddress × V)} (k : NewcoinAddress)
    (v : V) (hs : m.Pairwise (fun p q => p.1 < q.1)) :
    (mapInsert m k v).Pairwise (fun p q => p.1 < q.1) := by
  unfold mapInsert
  cases hf : mapFind m k with
  | some v0 => exact hs
  | none => exact mapPlace_pairwise v hs (mapFind_none_not_mem hf)

theorem mapErase_pairwise {V : Type} {m : List (NewcoinAddress × V)} (k : NewcoinAddress)
    (hs : m.Pairwise (fun p q => p.1 < q.1)) :
    (mapErase m k).Pairwise (fun p q => p.1 < q.1) := by
  induction m with
  | nil => simp [mapErase]
  | cons q m ih =>
    obtain ⟨k1, v1⟩ := q
    rw [List.pairwise_cons] at hs
    by_cases h : k1 = k
    · simp only [mapErase, h, if_true]
      exact ih hs.2
    · simp only [mapErase, h, if_false]
      rw [List.pairwise_cons]
      exact ⟨fun p hp => hs.1 p (mem_mapErase.mp hp).1, ih hs.2⟩

theorem foldl_mapErase_pairwise {A V : Type} (f : A → NewcoinAddress) (l : List A) :
    ∀ m : List (NewcoinAddress × V), m.Pairwise (fun p q => p.1 < q.1) →
      (l.foldl (fun acc it => mapErase acc (f it)) m).Pairwise (fun p q => p.1 < q.1) := by
  induction l with
  | nil => intro m hs; exact hs
  | cons a l ih => intro m hs; exact ih _ (mapErase_pairwise _ hs)

theorem doPublic_mAccounts (w : Wallet) (db : WalletDB) (g : NewcoinAddress) (c d : Bool) :
    (w.doPublic db g c d).2.1.mAccounts = w.mAccounts := by
  rcases doPublic_wallet w db g c d with e | ⟨_, e⟩
  · rw [e]
  · rw [e]

theorem doPrivate_mAccounts {env : Env} {w : Wallet} {db : WalletDB} {seed : NewcoinAddress}
    {c u : Bool} {r : Option LocalAccountFamily × Wallet × WalletDB}
    (hr : w.doPrivate env db seed c u = some r) : r.2.1.mAccounts = w.mAccounts := by
  unfold Wallet.doPrivate at hr
  cases hf : mapFind w.mFamilies (env.seedGenerator seed) with
  | some fam =>
    simp only [hf] at hr
    split at hr
    · split at hr
      · cases hr
      · cases hr; rfl
    · cases hr; rfl
  | none =>
    simp only [hf] at hr
    cases hd : LocalAccountFamily.readFamily db (env.seedGenerator seed) with
    | some fam =>
      simp only [hd] at hr
      split at hr
      · split at hr
        · cases hr
        · cases hr; rfl
      · cases hr; rfl
    | none =>
      simp only [hd] at hr
      cases c with
      | false =>
        simp only [Bool.not_false, if_true] at hr
        cases hr; rfl
      | true =>
        simp only [Bool.not_true, Bool.false_eq_true, if_false] at hr
        split at hr
        · split at hr
          · cases hr
          · cases hr; rfl
        · cases hr; rfl

theorem loadRow_mAccounts (w : Wallet) (db : WalletDB) (row : FamilyRow) :
    (w.loadRow db row).mAccounts = w.mAccounts := by
  unfold Wallet.loadRow
  have h1 := doPublic_mAccounts w db row.FamilyGenerator true false
  cases hd : w.doPublic db row.FamilyGenerator true false with
  | mk fo rest =>
    obtain ⟨w1, db1⟩ := rest
    rw [hd] at h1
    cases fo with
    | none => exact h1
    | some f => exact h1

theorem load_mAccounts (db rows : WalletDB) :
    ∀ w : Wallet, (rows.foldl (Wallet.loadRow db) w).mAccounts = w.mAccounts := by
  induction rows with
  | nil => intro w; rfl
  | cons row rows ih => intro w; exact (ih _).trans (loadRow_mAccounts w db row)

theorem Sorted_getLocalAccount {env : Env} {w : Wallet} (h : w.Sorted) (g : NewcoinAddress)
    (seq : Int) : (w.getLocalAccount env g seq).2.Sorted := by
  cases hf : mapFind w.mFamilies g with
  | none => simp [Wallet.getLocalAccount, hf, h]
  | some fam =>
    rw [getLocalAccount_eq env w g seq fam hf]
    exact mapInsert_pairwise _ _ h

theorem Sorted_getNewLocalAccount {env : Env} {w : Wallet} (h : w.Sorted) (g : NewcoinAddress) :
    (w.getNewLocalAccount env g).2.Sorted := by
  cases hf : mapFind w.mFamilies g with
  | none => simp [Wallet.getNewLocalAccount, hf, h]
  | some fam =>
    rw [getNewLocalAccount_eq env w g fam hf]
    exact mapInsert_pairwise _ _ h

/-- Every operation keeps the address index in address order. -/
theorem Sorted_step {env : Env} {s s1 : State} (op : Op) (h : s.1.Sorted)
    (hs : op.step env s = some s1) : s1.1.Sorted := by
  cases op with
  | addFamilySeed seed lk =>
    simp only [Op.step, Wallet.addFamilySeed] at hs
    cases hd : s.1.doPrivate env s.2 seed true (!lk) with
    | none => simp [hd] at hs
    | some r =>
      simp only [hd, Option.some.injEq] at hs
      subst hs
      unfold Wallet.Sorted
      rw [doPrivate_mAccounts hd]
      exact h
  | addFamily g =>
    simp only [Op.step, Wallet.addFamily, Option.some.injEq] at hs
    subst hs
    unfold Wallet.Sorted
    rw [doPublic_mAccounts]
    exact h
  | findFamilyPK g =>
    simp only [Op.step, Wallet.findFamilyPK, Option.some.injEq] at hs
    subst hs
    unfold Wallet.Sorted
    rw [doPublic_mAccounts]
    exact h
  | getNewLocalAccount g =>
    simp only [Op.step, Option.some.injEq] at hs
    subst hs
    exact Sorted_getNewLocalAccount h g
  | getLocalAccount g seq =>
    simp only [Op.step, Option.some.injEq] at hs
    subst hs
    exact Sorted_getLocalAccount h g seq
  | getLocalAccountByID a =>
    simp only [Op.step, Option.some.injEq] at hs
    subst hs
    exact h
  | parseAccount sp =>
    simp only [Op.step] at hs
    cases hp : s.1.parseAccount env s.2 sp with
    | error e =>
      simp only [hp, Option.some.injEq] at hs
      subst hs
      exact h
    | ok r =>
      simp only [hp, Option.some.injEq] at hs
      subst hs
      rcases (parseAccount_state hp).2 with e | ⟨g, seq, e⟩
      · rw [e]; exact h
      · rw [e]; exact Sorted_getLocalAccount h g seq
  | peekKey g seq =>
    simp only [Op.step, Option.some.injEq] at hs
    subst hs
    cases hf : mapFind s.1.mFamilies g with
    | none => simp [Wallet.peekKey, hf, h]
    | some fam => simpa [Wallet.peekKey, hf, Wallet.Sorted] using h
  | delFamily g =>
    simp only [Op.step, Option.some.injEq] at hs
    subst hs
    cases hf : mapFind s.1.mFamilies g with
    | none => simp [Wallet.delFamily, hf, h]
    | some fam =>
      simp only [Wallet.delFamily, hf, Wallet.Sorted]
      exact foldl_mapErase_pairwise _ _ _ h
  | lock g =>
    simp only [Op.step, Option.some.injEq] at hs
    subst hs
    cases hf : mapFind s.1.mFamilies g with
    | none => simp [Wallet.lock, hf, h]
    | some fam => simpa [Wallet.lock, hf, Wallet.Sorted] using h
  | lockAll =>
    simp only [Op.step, Option.some.injEq] at hs
    subst hs
    exact h
  | load =>
    simp only [Op.step, Option.some.injEq] at hs
    subst hs
    unfold Wallet.Sorted
    rw [Wallet.load, load_mAccounts]
    exact h

/-- Every reachable registry has its address index in address order. -/
theorem Reachable.sorted {env : Env} {s : State} (h : Reachable env s) : s.1.Sorted := by
  induction h with
  | start db => simp [Wallet.Sorted, Wallet.new]
  | step op s s1 _ hs ih => exact Sorted_step op ih hs

/-! ## C11: the account chosen for a transaction -/

/-- In an index in address order, the entries are exactly what the lookup finds. -/
theorem mem_iff_mapFind {V : Type} {m : List (NewcoinAddress × V)}
    (hs : m.Pairwise (fun p q => p.1 < q.1)) (k : NewcoinAddress) (v : V) :
    (k, v) ∈ m ↔ mapFind m k = some v := by
  refine ⟨?_, mapFind_some_mem⟩
  induction m with
  | nil => intro h; simp at h
  | cons q m ih =>
    obtain ⟨k1, v1⟩ := q
    rw [List.pairwise_cons] at hs
    intro h
    rcases List.mem_cons.mp h with e | h
    · cases e; simp [mapFind]
    · have hlt : k1 < k := hs.1 (k, v) h
      have hne : ¬ k1 = k := fun e => absurd hlt (by rw [e]; exact lt_irrefl _)
      simp only [mapFind, hne, if_false]
      exact ih hs.2 h

theorem scanAccounts_eq_none (ledger : Ledger) (w : Wallet) (amount : Nat)
    (l : List (NewcoinAddress × LocalAccount)) :
    w.scanAccounts ledger amount l = none ↔
      ∀ p ∈ l, ¬ (w.accountIsLocked p.2 = false ∧ amount ≤ p.2.getEffectiveBalance ledger) := by
  induction l with
  | nil => simp [Wallet.scanAccounts]
  | cons q l ih =>
    simp only [Wallet.scanAccounts, List.mem_cons, forall_eq_or_imp]
    by_cases hq : w.accountIsLocked q.2 = false ∧ amount ≤ q.2.getEffectiveBalance ledger
    · simp [hq.1, hq.2]
    · have hc : (!w.accountIsLocked q.2 && decide (amount ≤ q.2.getEffectiveBalance ledger))
          = false := by
        cases hl : w.accountIsLocked q.2 with
        | true => simp
        | false =>
          have : ¬ amount ≤ q.2.getEffectiveBalance ledger := fun h => hq ⟨hl, h⟩
          simp [this]
      rw [hc]
      simp only [Bool.false_eq_true, if_false, ih]
      exact ⟨fun h => ⟨hq, h⟩, fun h => h.2⟩

theorem scanAccounts_eq_some (ledger : Ledger) (w : Wallet) (amount : Nat)
    (l : List (NewcoinAddress × LocalAccount)) (hs : l.Pairwise (fun p q => p.1 < q.1))
    (a : LocalAccount) (h : w.scanAccounts ledger amount l = some a) :
    ∃ k, (k, a) ∈ l ∧ w.accountIsLocked a = false ∧ amount ≤ a.getEffectiveBalance ledger ∧
      ∀ p ∈ l, w.accountIsLocked p.2 = false → amount ≤ p.2.getEffectiveBalance ledger →
        k ≤ p.1 := by
  induction l with
  | nil => simp [Wallet.scanAccounts] at h
  | cons q l ih =>
    rw [List.pairwise_cons] at hs
    simp only [Wallet.scanAccounts] at h
    by_cases hc : (!w.accountIsLocked q.2 && decide (amount ≤ q.2.getEffectiveBalance ledger))
        = true
    · simp only [hc, if_true, Option.some.injEq] at h
      subst h
      simp only [Bool.and_eq_true, Bool.not_eq_true', decide_eq_true_eq] at hc
      refine ⟨q.1, List.mem_cons_self _ _, hc.1, hc.2, ?_⟩
      intro p hp _ _
      rcases List.mem_cons.mp hp with rfl | hp
      · exact le_refl _
      · exact le_of_lt (hs.1 p hp)
    · simp only [hc, if_false] at h
      obtain ⟨k, hk, h1, h2, h3⟩ := ih hs.2 h
      refine ⟨k, List.mem_cons_of_mem _ hk, h1, h2, ?_⟩
      intro p hp hl hb
      rcases List.mem_cons.mp hp with rfl | hp
      · exfalso
        apply hc
        simp [hl, hb]
      · exact h3 p hp hl hb

/-- On a consistent registry the family of an account of the address index is registered,
so that its lock test is the one of that family. -/
theorem WF_accountIsLocked {env : Env} {w : Wallet} (h : w.WF env) (k : NewcoinAddress)
    (acc : LocalAccount) (hfind : w.getLocalAccountByID k = some acc) :
    acc.getAddress = k ∧
    ∃ fam, w.familyOf acc = some fam ∧ w.accountIsLocked acc = acc.isLocked fam := by
  obtain ⟨h1, _, fam, h3, _⟩ := h.accounts _ (mapFind_some_mem hfind)
  refine ⟨h1.symm, fam, h3, ?_⟩
  simp only [Wallet.accountIsLocked, Wallet.familyOf] at h3 ⊢
  rw [h3]

/-- C11: on every reachable registry, for every ledger and amount,
`findAccountForTransaction(amount)` leaves the registry unchanged; it returns the empty
pointer exactly when no account of the address index is both unlocked and has an effective
balance of at least `amount`; and an account it returns is in the address index, is unlocked,
has an effective balance of at least `amount`, and has the smallest address among the
accounts of the index that are unlocked with such a balance. The lock test of an account of
the index is the one of its registered family. -/
theorem C11_findAccountForTransaction (env : Env) (ledger : Ledger) (s : State)
    (hr : Reachable env s) (amount : Nat) :
    (s.1.findAccountForTransaction ledger amount).2 = s.1 ∧
    ((s.1.findAccountForTransaction ledger amount).1 = none ↔
      ∀ (k : NewcoinAddress) (acc : LocalAccount), s.1.getLocalAccountByID k = some acc →
        ¬ (s.1.accountIsLocked acc = false ∧ amount ≤ acc.getEffectiveBalance ledger)) ∧
    (∀ a, (s.1.findAccountForTransaction ledger amount).1 = some a →
      s.1.getLocalAccountByID a.getAddress = some a ∧
      s.1.accountIsLocked a = false ∧ amount ≤ a.getEffectiveBalance ledger ∧
      ∀ (k : NewcoinAddress) (acc : LocalAccount), s.1.getLocalAccountByID k = some acc →
        s.1.accountIsLocked acc = false → amount ≤ acc.getEffectiveBalance ledger →
          a.getAddress ≤ acc.getAddress) ∧
    (∀ (k : NewcoinAddress) (acc : LocalAccount), s.1.getLocalAccountByID k = some acc →
      acc.getAddress = k ∧
      ∃ fam, s.1.familyOf acc = some fam ∧ s.1.accountIsLocked acc = acc.isLocked fam) := by
  have hw := hr.wf
  have hs := hr.sorted
  refine ⟨rfl, ?_, ?_, fun k acc hfind => WF_accountIsLocked hw k acc hfind⟩
  · simp only [Wallet.findAccountForTransaction, scanAccounts_eq_none]
    constructor
    · intro h k acc hfind
      exact h (k, acc) (mapFind_some_mem hfind)
    · intro h p hp
      exact h p.1 p.2 ((mem_iff_mapFind hs p.1 p.2).mp hp)
  · intro a ha
    obtain ⟨k, hk, h1, h2, h3⟩ := scanAccounts_eq_some ledger s.1 amount _ hs a ha
    have hfind : s.1.getLocalAccountByID k = some a := (mem_iff_mapFind hs k a).mp hk
    have hka : a.getAddress = k := (WF_accountIsLocked hw k a hfind).1
    refine ⟨by rw [hka]; exact hfind, h1, h2, ?_⟩
    intro k1 acc hfind1 hl hb
    have hk1 : acc.getAddress = k1 := (WF_accountIsLocked hw k1 acc hfind1).1
    rw [hka, hk1]
    exact h3 (k1, acc) (mapFind_some_mem hfind1) hl hb

theorem reachable_unlockedFamily : Reachable sampleEnv (unlockedFamily, oneFamilyDB) := by
  refine Reachable.step (Op.addFamilySeed 6 false) (Wallet.new, []) _ (Reachable.start []) ?_
  have hs : sampleEnv.seedGenerator 6 = 7 := by decide
  have hk : sampleEnv.getFamilyPrivateKey 6 = 6 := by decide
  have hdb : (LocalAccountFamily.new 7).write [] = oneFamilyDB := by decide
  have hu : (LocalAccountFamily.new 7).unlock sampleEnv 6
      = some { LocalAccountFamily.new 7 with mRootPrivateKey := some 6 } :=
    sampleEnv_unlock _ _ rfl
  have hl : (LocalAccountFamily.new 7).isLocked = true := by decide
  have hins : mapInsert ([] : List (NewcoinAddress × LocalAccountFamily)) 7
      (LocalAccountFamily.new 7) = [(7, LocalAccountFamily.new 7)] := by decide
  simp only [Op.step, Wallet.addFamilySeed, Wallet.doPrivate, hs, hk, Wallet.new, mapFind,
    LocalAccountFamily.readFamily, List.find?, Bool.not_true, Bool.false_eq_true, if_false,
    Bool.not_false, Bool.true_and, hl, if_true, hu, hdb, hins, mapSet, familyResult]
  rfl

theorem reachable_unlockedTwo : Reachable sampleEnv (unlockedTwo, oneFamilyDB) :=
  Reachable.step (Op.getNewLocalAccount 7) _ _
    (Reachable.step (Op.getNewLocalAccount 7) (unlockedFamily, oneFamilyDB) _
      reachable_unlockedFamily rfl) (by decide)

/-- C11 at the reachable registry with the unlocked family 7 and its accounts 0 and 1, where
only account 1 has a balance (50): for the amount 10 the account returned is account 1. -/
theorem C11_findAccountForTransaction_witness :
    Reachable sampleEnv (unlockedTwo, oneFamilyDB) ∧
    (unlockedTwo.findAccountForTransaction sampleLedger 10).1 = some (accountOf sampleEnv 7 1) ∧
    (unlockedTwo.findAccountForTransaction sampleLedger 10).2 = unlockedTwo ∧
    (∀ a, (unlockedTwo.findAccountForTransaction sampleLedger 10).1 = some a →
      unlockedTwo.getLocalAccountByID a.getAddress = some a ∧
      unlockedTwo.accountIsLocked a = false ∧ 10 ≤ a.getEffectiveBalance sampleLedger ∧
      ∀ (k : NewcoinAddress) (acc : LocalAccount),
        unlockedTwo.getLocalAccountByID k = some acc →
        unlockedTwo.accountIsLocked acc = false → 10 ≤ acc.getEffectiveBalance sampleLedger →
          a.getAddress ≤ acc.getAddress) :=
  ⟨reachable_unlockedTwo, by decide,
    (C11_findAccountForTransaction sampleEnv sampleLedger (unlockedTwo, oneFamilyDB)
      reachable_unlockedTwo 10).1,
    (C11_findAccountForTransaction sampleEnv sampleLedger (unlockedTwo, oneFamilyDB)
      reachable_unlockedTwo 10).2.2.1⟩

/-- The choice at work on the same registry: with every balance 10 the account of the
smaller address (account 0) is returned for the amount 10, and no account for 11; after
`lock()` no account is returned at all. -/
theorem findAccountForTransaction_examples :
    addressOf sampleEnv 7 0 < addressOf sampleEnv 7 1 ∧
    (unlockedTwo.findAccountForTransaction flatLedger 10).1 = some (accountOf sampleEnv 7 0) ∧
    (unlockedTwo.findAccountForTransaction flatLedger 11).1 = none ∧
    (unlockedTwo.lockAll.findAccountForTransaction flatLedger 0).1 = none := by
  refine ⟨by decide, by decide, by decide, by decide⟩

/-! ## C12: the full name of an account parses back to the account -/

theorem digitChar_spec (d : Nat) (h : d < 10) :
    (digitChar d).isDigit = true ∧ (digitChar d).toNat - 48 = d := by
  interval_cases d <;> decide

theorem decimalCore_digits :
    ∀ (fuel n : Nat) (acc : List Char), (∀ c ∈ acc, c.isDigit = true) →
      ∀ c ∈ decimalCore fuel n acc, c.isDigit = true := by
  intro fuel
  induction fuel with
  | zero => intro n acc h; exact h
  | succ fuel ih =>
    intro n acc h
    have hacc : ∀ c ∈ digitChar (n % 10) :: acc, c.isDigit = true := by
      intro c hc
      rcases List.mem_cons.mp hc with rfl | hc
      · exact (digitChar_spec _ (Nat.mod_lt _ (by decide))).1
      · exact h c hc
    simp only [decimalCore]
    split
    · exact hacc
    · exact ih _ _ hacc

theorem decimalCore_ne_nil :
    ∀ (fuel n : Nat) (acc : List Char), acc ≠ [] → decimalCore fuel n acc ≠ [] := by
  intro fuel
  induction fuel with
  | zero => intro n acc h; exact h
  | succ fuel ih =>
    intro n acc _
    simp only [decimalCore]
    split
    · exact List.cons_ne_nil _ _
    · exact ih _ _ (List.cons_ne_nil _ _)

theorem decimalCore_succ_ne_nil (fuel n : Nat) : decimalCore (fuel + 1) n [] ≠ [] := by
  simp only [decimalCore]
  split
  · exact List.cons_ne_nil _ _
  · exact decimalCore_ne_nil _ _ _ (List.cons_ne_nil _ _)

/-- Reading the digits that `decimalCore` writes gives the number back. -/
theorem decimalCore_value :
    ∀ (fuel n : Nat) (acc : List Char), n < fuel →
      (decimalCore fuel n acc).foldl (fun a c => 10 * a + (c.toNat - 48)) 0
        = acc.foldl (fun a c => 10 * a + (c.toNat - 48)) n := by
  intro fuel
  induction fuel with
  | zero => intro n acc h; omega
  | succ fuel ih =>
    intro n acc h
    have hd := (digitChar_spec (n % 10) (Nat.mod_lt _ (by decide))).2
    simp only [decimalCore]
    split
    · rename_i h0
      simp only [List.foldl_cons, hd]
      congr 1
      omega
    · rename_i h0
      rw [ih (n / 10) _ (by omega)]
      simp only [List.foldl_cons, hd]
      congr 1
      omega

/-- A text of decimal digits has no sign in front. -/
theorem sign_of_digits (ds : List Char) :
    (∀ c ∈ ds, c.isDigit = true) →
    (match ds with
      | '-' :: r => (true, r)
      | '+' :: r => (false, r)
      | r => (false, r)) = (false, ds) := by
  intro hd
  split
  · exact absurd (hd '-' (List.mem_cons_self _ _)) (by decide)
  · exact absurd (hd '+' (List.mem_cons_self _ _)) (by decide)
  · rfl

/-- The conversion `lexical_cast<int>` on a non-empty text of decimal digits. -/
theorem lexicalCastInt_digits (ds : List Char) (hne : ds ≠ [])
    (hd : ∀ c ∈ ds, c.isDigit = true) :
    lexicalCastInt (String.mk ds) =
      if ((ds.foldl (fun a c => 10 * a + (c.toNat - 48)) 0 : Nat) : Int) < 2 ^ 31
      then some ((ds.foldl (fun a c => 10 * a + (c.toNat - 48)) 0 : Nat) : Int) else none := by
  have hsigned : (match (String.mk ds).toList with
      | '-' :: r => (true, r)
      | '+' :: r => (false, r)
      | r => (false, r)) = (false, ds) := sign_of_digits ds hd
  have hall : ds.all Char.isDigit = true := List.all_eq_true.mpr hd
  have hemp : ds.isEmpty = false := by
    cases ds with
    | nil => exact absurd rfl hne
    | cons c r => rfl
  unfold lexicalCastInt
  rw [hsigned]
  simp only [hemp, hall, Bool.not_true, Bool.or_self, Bool.false_eq_true, if_false]
  have hlow : -(2 ^ 31 : Int)
      ≤ ((ds.foldl (fun a c => 10 * a + (c.toNat - 48)) 0 : Nat) : Int) := by
    have : (0 : Int) ≤ ((ds.foldl (fun a c => 10 * a + (c.toNat - 48)) 0 : Nat) : Int) :=
      Int.ofNat_nonneg _
    omega
  simp only [hlow, true_and]

/-- Printing an `int` that is not negative and reading it back gives the same `int`. -/
theorem lexicalCast_roundtrip (i : Int) (h0 : 0 ≤ i) (h1 : i < 2 ^ 31) :
    lexicalCastInt (lexicalCastString i) = some i := by
  cases i with
  | negSucc n => exact absurd h0 (by simp [Int.negSucc_lt_zero])
  | ofNat n =>
    simp only [lexicalCastString]
    rw [lexicalCastInt_digits _ (decimalCore_succ_ne_nil n n)
      (decimalCore_digits _ _ _ (fun c hc => by simp at hc))]
    rw [decimalCore_value (n + 1) n [] (Nat.lt_succ_self n)]
    simp only [List.foldl_nil]
    have h2 : ((n : Nat) : Int) < 2 ^ 31 := h1
    rw [if_pos h2]
    rfl

theorem span_first_colon (l1 l2 : List Char) (h : ∀ c ∈ l1, c ≠ ':') :
    (l1 ++ ':' :: l2).span (fun c => c != ':') = (l1, ':' :: l2) := by
  rw [List.span_eq_take_drop]
  induction l1 with
  | nil => simp [List.takeWhile, List.dropWhile]
  | cons c l1 ih =>
    have hc : (c != ':') = true := by
      simpa using h c (List.mem_cons_self _ _)
    have ih1 := ih (fun x hx => h x (List.mem_cons_of_mem _ hx))
    simp only [Prod.mk.injEq] at ih1
    simp only [List.cons_append, List.takeWhile, List.dropWhile, hc, Prod.mk.injEq,
      List.cons.injEq, true_and]
    exact ih1

/-- On a registered family `g` whose text decodes back to the valid generator `g`, is not
empty and has no colon, `parseAccount` of the text, a colon and a printed index that reads
back as `i` does what `getLocalAccount(g, i)` does. -/
theorem parseAccount_fullName (env : Env) (w : Wallet) (db : WalletDB) (g : NewcoinAddress)
    (fam : LocalAccountFamily) (i : Int) (hf : mapFind w.mFamilies g = some fam)
    (hg : fam.mFamily = g) (hv : NewcoinAddress.isValid g = true)
    (hrt : env.setFamilyGenerator (env.humanFamilyGenerator g) = some g)
    (hne : (env.humanFamilyGenerator g).toList ≠ [])
    (hcolon : ∀ c ∈ (env.humanFamilyGenerator g).toList, c ≠ ':')
    (hcast : lexicalCastInt (lexicalCastString i) = some i) :
    w.parseAccount env db ((env.humanFamilyGenerator g ++ ":") ++ lexicalCastString i) =
      .ok ((w.getLocalAccount env g i).1, (w.getLocalAccount env g i).2, db) := by
  have hlist : ((env.humanFamilyGenerator g ++ ":") ++ lexicalCastString i).toList
      = (env.humanFamilyGenerator g).toList ++ ':' :: (lexicalCastString i).toList := by
    simp [String.toList, String.data_append]
  have hseq : (lexicalCastString i).toList ≠ [] := by
    intro he
    have hs : lexicalCastString i = "" := by
      cases hx : lexicalCastString i with
      | mk data =>
        rw [hx] at he
        simp only [String.toList] at he
        subst he
        rfl
    have hnone : lexicalCastInt "" = none := by decide
    rw [hs, hnone] at hcast
    cases hcast
  have hfam : (env.humanFamilyGenerator g).toList.isEmpty = false := by
    cases hx : (env.humanFamilyGenerator g).toList with
    | nil => exact absurd hx hne
    | cons c r => rfl
  have hseqe : (lexicalCastString i).toList.isEmpty = false := by
    cases hx : (lexicalCastString i).toList with
    | nil => exact absurd hx hseq
    | cons c r => rfl
  have hmk1 : String.mk (env.humanFamilyGenerator g).toList = env.humanFamilyGenerator g := rfl
  have hmk2 : String.mk (lexicalCastString i).toList = lexicalCastString i := rfl
  unfold Wallet.parseAccount
  rw [hlist, span_first_colon _ _ hcolon]
  simp only [hfam, hseqe, Bool.false_eq_true, if_false, hmk1, hmk2, hrt, findFamilyPK_eq, hf,
    familyResult, hg, hv, if_true, hcast]

/-- C12: on every reachable registry, for a registered family with a valid generator `g`
whose text decodes back to `g` (the codec round trip), is not empty and has no colon, and for
every `int` index `i >= 0`: the printed index reads back as `i`; `parseAccount` of the text
of `g`, a colon and the printed index returns what `getLocalAccount(g, i)` returns, an
account whose address is the one derived for `(g, i)`; and that specifier is the full name
`getFullName()` of the account of `(g, i)`. -/
theorem C12_specifier_round_trip (env : Env) (s : State) (hr : Reachable env s)
    (g : NewcoinAddress) (fam : LocalAccountFamily) (i : Int)
    (hf : mapFind s.1.mFamilies g = some fam) (hv : NewcoinAddress.isValid g = true)
    (hrt : env.setFamilyGenerator (env.humanFamilyGenerator g) = some g)
    (hne : (env.humanFamilyGenerator g).toList ≠ [])
    (hcolon : ∀ c ∈ (env.humanFamilyGenerator g).toList, c ≠ ':')
    (h0 : 0 ≤ i) (h1 : i < 2 ^ 31) :
    lexicalCastInt (lexicalCastString i) = some i ∧
    (accountOf env g i).getFullName env
      = (env.humanFamilyGenerator g ++ ":") ++ lexicalCastString i ∧
    s.1.parseAccount env s.2 ((accountOf env g i).getFullName env) =
      .ok ((s.1.getLocalAccount env g i).1, (s.1.getLocalAccount env g i).2, s.2) ∧
    ∃ a, (s.1.getLocalAccount env g i).1 = some a ∧
      a.getAddress = (accountOf env g i).getAddress := by
  have hw := hr.wf
  obtain ⟨hg, hc⟩ := hw.families g fam hf
  have hcast := lexicalCast_roundtrip i h0 h1
  refine ⟨hcast, rfl, ?_, ?_⟩
  · exact parseAccount_fullName env s.1 s.2 g fam i hf hg hv hrt hne hcolon hcast
  · obtain ⟨e1, e2, _⟩ := getAccount_spec env fam i true g hg hc
    rw [getLocalAccount_eq env s.1 g i fam hf]
    simp only [LocalAccount.new_eq_accountOf, e1, e2]
    cases hm : mapFind s.1.mAccounts (addressOf env g i) with
    | none => exact ⟨_, rfl, rfl⟩
    | some a =>
      refine ⟨a, rfl, ?_⟩
      obtain ⟨h2, _⟩ := hw.accounts _ (mapFind_some_mem hm)
      exact h2.symm

/-- C12 at the registry holding family 7 (text "7") and the index 3: the specifier is
"7:3". -/
theorem C12_specifier_round_trip_witness :
    Reachable sampleEnv (oneFamily, oneFamilyDB) ∧
    (accountOf sampleEnv 7 3).getFullName sampleEnv = "7:3" ∧
    oneFamily.parseAccount sampleEnv oneFamilyDB ((accountOf sampleEnv 7 3).getFullName sampleEnv)
      = .ok ((oneFamily.getLocalAccount sampleEnv 7 3).1,
          (oneFamily.getLocalAccount sampleEnv 7 3).2, oneFamilyDB) ∧
    ∃ a, (oneFamily.getLocalAccount sampleEnv 7 3).1 = some a ∧
      a.getAddress = (accountOf sampleEnv 7 3).getAddress :=
  ⟨reachable_oneFamily, by decide,
    (C12_specifier_round_trip sampleEnv (oneFamily, oneFamilyDB) reachable_oneFamily 7
      (LocalAccountFamily.new 7) 3 (by decide) (by decide) (by decide) (by decide) (by decide)
      (by decide) (by decide)).2.2⟩

/-! ## C13: operations on a family that is not registered -/

/-- C13: for a generator `g` that is not in the family map, `getNewLocalAccount(g)` and
`getLocalAccount(g, seq)` return the empty pointer, `peekKey(g, seq)` returns the invalid
default address, `lock(g)` returns false and `delFamily(g)` does nothing, each leaving the
registry (family map, counters, caches, address index) exactly as it was; and
`getLocalAccount(address)` for an address that is not in the address index returns the empty
pointer and, like every call of it, leaves the state as it was. -/
theorem C13_unknown_family (env : Env) (w : Wallet) (db : WalletDB) (g : NewcoinAddress)
    (seq : Int) (hf : mapFind w.mFamilies g = none) :
    w.getNewLocalAccount env g = (none, w) ∧
    w.getLocalAccount env g seq = (none, w) ∧
    w.peekKey env g seq = (NewcoinAddress.none, w) ∧
    NewcoinAddress.isValid (w.peekKey env g seq).1 = false ∧
    w.lock g = (false, w) ∧
    w.delFamily g = w ∧
    (Op.getNewLocalAccount g).step env (w, db) = some (w, db) ∧
    (Op.getLocalAccount g seq).step env (w, db) = some (w, db) ∧
    (Op.peekKey g seq).step env (w, db) = some (w, db) ∧
    (Op.lock g).step env (w, db) = some (w, db) ∧
    (Op.delFamily g).step env (w, db) = some (w, db) ∧
    (∀ a : NewcoinAddress, mapFind w.mAccounts a = none →
      w.getLocalAccountByID a = none ∧
      (Op.getLocalAccountByID a).step env (w, db) = some (w, db)) := by
  have h1 : w.getNewLocalAccount env g = (none, w) := by
    simp [Wallet.getNewLocalAccount, hf]
  have h2 : w.getLocalAccount env g seq = (none, w) := by
    simp [Wallet.getLocalAccount, hf]
  have h3 : w.peekKey env g seq = (NewcoinAddress.none, w) := by
    simp [Wallet.peekKey, hf]
  have h4 : w.lock g = (false, w) := by
    simp [Wallet.lock, hf]
  have h5 : w.delFamily g = w := by
    simp [Wallet.delFamily, hf]
  refine ⟨h1, h2, h3, ?_, h4, h5, ?_, ?_, ?_, ?_, ?_, ?_⟩
  · rw [h3]; rfl
  · simp only [Op.step, h1]
  · simp only [Op.step, h2]
  · simp only [Op.step, h3]
  · simp only [Op.step, h4]
  · simp only [Op.step, h5]
  · intro a ha
    exact ⟨ha, rfl⟩

/-- C13 at the registry holding family 7 with one allocated account: the generator 8 is not
registered and the address 1 is not in the address index. -/
theorem C13_unknown_family_witness :
    mapFind oneAccount.mFamilies 8 = none ∧ mapFind oneAccount.mAccounts 1 = none ∧
    oneAccount.getNewLocalAccount sampleEnv 8 = (none, oneAccount) ∧
    oneAccount.getLocalAccount sampleEnv 8 2 = (none, oneAccount) ∧
    oneAccount.peekKey sampleEnv 8 2 = (NewcoinAddress.none, oneAccount) ∧
    oneAccount.lock 8 = (false, oneAccount) ∧
    oneAccount.delFamily 8 = oneAccount ∧
    oneAccount.getLocalAccountByID 1 = none :=
  have h := C13_unknown_family sampleEnv oneAccount oneFamilyDB 8 2 (by decide)
  ⟨by decide, by decide, h.1, h.2.1, h.2.2.1, h.2.2.2.2.1, h.2.2.2.2.2.1,
    (h.2.2.2.2.2.2.2.2.2.2.2 1 (by decide)).1⟩
